import Mathlib

/-!
Shallow embedding of the `rsc-endowment-abm` simulation engine
(`src/model.py`, `src/agents.py`, `src/constants.py`) in Lean 4.

Numbers: all Python floats/ints of the engine are embedded as `ℚ`.

Randomness: at `EndowmentModel.__init__` the code calls `random.seed(seed)`,
so the whole sequence of values produced by the module-level `random`
generator is a function of the configured seed.  The embedding therefore
treats the two underlying streams (the uniform stream behind
`random.random`/`random.uniform`/`random.randint`/`random.choice`, and the
gaussian stream behind `random.gauss`) as part of the configuration record:
identical configuration (same seed) means identical streams.  A draw
consumes one stream value at the current cursor.  `random.randint` and
`random.choice` really consume the Mersenne–Twister state through
`_randbelow`; the embedding abstracts each such call as one draw from the
unit stream, interpreted in the documented output range.

The per-step visiting order of holders comes from
`self.agents.shuffle_do("step")` (model.py line 424).  Mesa's
`Model.__init__` is invoked as `super().__init__()` with no seed, so the
`Random` instance used by `AgentSet.shuffle_do` is seeded from entropy /
the pre-seed global generator state and is NOT a function of the
configuration.  The embedding therefore takes the per-step shuffle orders
as a separate environment input `shuffles : ℕ → List ℕ` (a list of indices
into the holder list for each step), not as part of the configuration.

`math.exp` (used only inside `EndowmentHolder._should_deploy`) is
transcendental, so it is abstracted as a configuration-level function
`expFn : ℚ → ℚ`; it only feeds a probability that is compared against a
unit draw, and every theorem below holds for an arbitrary `expFn`.
Likewise the emission schedule `E(t) = year0_emission / 2^(t/52/half_life)`
is real-valued (and its constants `EMISSION_PARAMS` are absent from
`src/constants.py`), so the per-model annual emission is abstracted as a
configuration function `annualEmissionFn : ℕ → ℚ`; the real-valued formula
itself is embedded separately below (`annual_emission`/`weekly_emission`)
for the emission-schedule claims.

Parts of the engine that no claim depends on and that feed back into no
behavioural decision are not embedded: the `events` log, the per-step
counters (`_step_exit_count`, ...), the `DataCollector`, and the
serialization helpers.
-/

set_option maxHeartbeats 1000000
set_option maxRecDepth 3000

namespace RscEndowment

/-- Status of a research funding proposal (`EndowmentProposal.status` in
agents.py); `opened` embeds the Python string `"open"`. -/
inductive PStatus
  | opened
  | funded
  | completed
  | failed
deriving DecidableEq, Repr

/-- Failure handling mode (`failure_mode` in model.py): `"nothing"` or
`"partial_refund"`. -/
inductive FailureMode
  | nothing
  | partialRefund
deriving DecidableEq, Repr

/-- One entry of the time-weight multiplier table.

Modelled from the spec: `get_time_weight_multiplier` is imported by
agents.py and model.py from `.constants` but is missing from
`src/constants.py` (the file only contains the older staking `TIERS`
table).  The spec (§4.2 step 3) and the model.py docstring give the
schedule: `<4` weeks → 1.00×, `4–52` weeks → 1.15×, `>52` weeks → 1.20×,
with the labels `New` / `Holder` / `LongTerm` used by
`EndowmentModel._count_at_multiplier`. -/
structure MultiplierTier where
  label : String
  multiplier : ℚ
deriving DecidableEq, Repr

/-- Modelled from the spec: the time-weight multiplier lookup
`get_time_weight_multiplier(weeks_held)` missing from `src/constants.py`
(see `MultiplierTier`). -/
def get_time_weight_multiplier (weeks_held : ℕ) : MultiplierTier :=
  if weeks_held < 4 then ⟨"New", 1⟩
  else if weeks_held ≤ 52 then ⟨"Holder", 23 / 20⟩
  else ⟨"LongTerm", 6 / 5⟩

/-- Sampling data of one behavioural archetype.  The four trait ranges
`mission_alignment`, `engagement`, `price_sensitivity` exist in
`src/constants.py`; `hold_horizon`, `rsc_range` and
`yield_threshold_offset` are read by `EndowmentHolder.__init__` but are
missing from the table in `src/constants.py`, so the whole record is kept
abstract (Modelled from the spec: §4.2 "Archetype trait sampling at
creation"). -/
structure ArchSpec where
  missionAlignment : ℚ × ℚ
  engagement : ℚ × ℚ
  priceSensitivity : ℚ × ℚ
  holdHorizon : ℚ × ℚ
  rscRange : ℤ × ℤ
  yieldThresholdOffset : ℚ
deriving DecidableEq, Repr

/-- First-match lookup in an association list keyed by strings; embeds a
Python dict membership test / indexing. -/
def lookupStr {α : Type} : List (String × α) → String → Option α
  | [], _ => none
  | (k, v) :: rest, key => if k = key then some v else lookupStr rest key

/-- Configuration record of an `EndowmentModel` run: the constructor
parameters after default resolution (model.py lines 40–91), the archetype
table, and the seed-determined random streams (see the header comment). -/
structure Config where
  numHolders : ℕ
  numProposals : ℕ
  burnRate : ℚ
  successRate : ℚ
  fundingTargetMin : ℤ
  fundingTargetMax : ℤ
  deployProbability : ℚ
  archetypeMix : List (String × ℚ)
  yieldThresholdMean : ℚ
  creditExpiryEnabled : Bool
  creditExpiryWeeks : ℕ
  failureMode : FailureMode
  archetypes : List (String × ArchSpec)
  annualEmissionFn : ℕ → ℚ
  expFn : ℚ → ℚ
  unitStream : ℕ → ℚ
  gaussStream : ℕ → ℚ

/-- Cursor into the two random streams of a `Config` (the state of the
module-level `random` generator). -/
structure RC where
  u : ℕ
  g : ℕ
deriving DecidableEq, Repr

/-- `random.random()`: one unit draw. -/
def Config.rand (cfg : Config) (c : RC) : ℚ × RC :=
  (cfg.unitStream c.u, { c with u := c.u + 1 })

/-- `random.uniform(a, b) = a + (b - a) * random.random()`. -/
def Config.uniformD (cfg : Config) (a b : ℚ) (c : RC) : ℚ × RC :=
  let (v, c1) := cfg.rand c
  (a + (b - a) * v, c1)

/-- `random.randint(a, b)`: one abstract draw interpreted in `[a, b]`. -/
def Config.randintD (cfg : Config) (a b : ℤ) (c : RC) : ℤ × RC :=
  let (v, c1) := cfg.rand c
  (min (a + ⌊v * ((b : ℚ) - (a : ℚ) + 1)⌋) b, c1)

/-- `random.gauss(mu, sigma)`: one draw from the gaussian stream, scaled. -/
def Config.gaussD (cfg : Config) (mu sigma : ℚ) (c : RC) : ℚ × RC :=
  (mu + sigma * cfg.gaussStream c.g, { c with g := c.g + 1 })

/-- `random.choice` over a sequence of length `n`: one abstract draw
interpreted as an index in `[0, n-1]`. -/
def Config.choiceD (cfg : Config) (n : ℕ) (c : RC) : ℕ × RC :=
  let (v, c1) := cfg.rand c
  (min (⌊v * (n : ℚ)⌋).toNat (n - 1), c1)

/-- One record of `EndowmentHolder.deployments` (agents.py lines 282–287). -/
structure DeployRecord where
  step : ℕ
  proposalId : ℕ
  credits : ℚ
  burned : ℚ
deriving DecidableEq, Repr

/-- State of an `EndowmentHolder` (agents.py lines 44–115). -/
structure Holder where
  uniqueId : ℕ
  archetype : String
  missionAlignment : ℚ
  engagement : ℚ
  priceSensitivity : ℚ
  holdHorizon : ℚ
  rscHeld : ℚ
  initialRsc : ℚ
  weeksHeld : ℕ
  yieldThreshold : ℚ
  creditExpiryEnabled : Bool
  creditExpiryWeeks : ℕ
  creditBatches : List (ℕ × ℚ)
  totalExpired : ℚ
  credits : ℚ
  totalDeployed : ℚ
  totalBurned : ℚ
  deployments : List DeployRecord
  active : Bool
  consecutiveIdleSteps : ℕ
  satisfaction : ℚ
deriving DecidableEq, Repr

/-- `EndowmentHolder._time_weight_multiplier` (agents.py lines 121–124). -/
def Holder.timeWeightMultiplier (h : Holder) : ℚ :=
  (get_time_weight_multiplier h.weeksHeld).multiplier

/-- State of an `EndowmentProposal` (agents.py lines 377–393).  `backers`
is the insertion-ordered Python dict `holder id ↦ cumulative credits`. -/
structure Proposal where
  uniqueId : ℕ
  fundingTarget : ℚ
  creditsReceived : ℚ
  backers : List (ℕ × ℚ)
  status : PStatus
  stepCreated : ℕ
  stepFunded : Option ℕ
  stepResolved : Option ℕ
deriving DecidableEq, Repr

/-- `EndowmentProposal.funding_progress` (agents.py lines 395–397). -/
def Proposal.fundingProgress (p : Proposal) : ℚ :=
  p.creditsReceived / p.fundingTarget * 100

/-- `EndowmentProposal.is_funded` (agents.py lines 399–401). -/
def Proposal.isFunded (p : Proposal) : Prop :=
  p.fundingTarget ≤ p.creditsReceived

instance (p : Proposal) : Decidable p.isFunded := by
  unfold Proposal.isFunded; infer_instance

/-- Update of the `backers` dict in `receive_credits`: add `amount` to the
entry of `holderId`, inserting it (initialised to 0) if absent
(agents.py lines 405–408). -/
def addBacker : List (ℕ × ℚ) → ℕ → ℚ → List (ℕ × ℚ)
  | [], holderId, amount => [(holderId, amount)]
  | (i, v) :: rest, holderId, amount =>
      if i = holderId then (i, v + amount) :: rest
      else (i, v) :: addBacker rest holderId amount

/-- `EndowmentProposal.receive_credits` (agents.py lines 403–416);
`stepCount` is the caller model's `step_count`. -/
def Proposal.receiveCredits (p : Proposal) (holderId : ℕ) (amount : ℚ)
    (stepCount : ℕ) : Proposal :=
  let p1 := { p with creditsReceived := p.creditsReceived + amount,
                     backers := addBacker p.backers holderId amount }
  if p1.isFunded ∧ p1.status = .opened then
    { p1 with status := .funded, stepFunded := some stepCount }
  else p1

/-- `EndowmentProposal.resolve` (agents.py lines 418–425). -/
def Proposal.resolve (p : Proposal) (success : Bool) (stepCount : ℕ) :
    Proposal :=
  { p with status := if success then .completed else .failed,
           stepResolved := some stepCount }

/-- Sum of the batch amounts in a credit-expiry ledger. -/
def batchSum (l : List (ℕ × ℚ)) : ℚ :=
  (l.map Prod.snd).sum

/-- Loop body of `EndowmentHolder._expire_old_credits` (agents.py lines
165–174): pop expired batches oldest-first, decrement credits (floored at
0), accumulate the expired total, stop at the first non-expired batch. -/
def expireLoop (currentStep : ℤ) (expiryWeeks : ℤ) :
    List (ℕ × ℚ) → ℚ → ℚ → List (ℕ × ℚ) × ℚ × ℚ
  | [], credits, totalExpired => ([], credits, totalExpired)
  | (stepCreated, amount) :: rest, credits, totalExpired =>
      if currentStep - (stepCreated : ℤ) > expiryWeeks then
        expireLoop currentStep expiryWeeks rest
          (max 0 (credits - amount)) (totalExpired + amount)
      else ((stepCreated, amount) :: rest, credits, totalExpired)

/-- `EndowmentHolder._expire_old_credits` (agents.py lines 161–174). -/
def Holder.expireOldCredits (h : Holder) (currentStep : ℕ) : Holder :=
  if h.creditExpiryEnabled then
    let r := expireLoop (currentStep : ℤ) (h.creditExpiryWeeks : ℤ)
      h.creditBatches h.credits h.totalExpired
    { h with creditBatches := r.1, credits := r.2.1, totalExpired := r.2.2 }
  else h

/-- FIFO consumption of credit batches inside `deploy_credits`
(agents.py lines 267–276). -/
def consumeBatches (remaining : ℚ) :
    List (ℕ × ℚ) → List (ℕ × ℚ)
  | [] => []
  | (stepCreated, batchAmount) :: rest =>
      if remaining ≤ 0 then (stepCreated, batchAmount) :: rest
      else if batchAmount ≤ remaining then
        consumeBatches (remaining - batchAmount) rest
      else (stepCreated, batchAmount - remaining) :: rest

/-- `EndowmentHolder.deploy_credits` (agents.py lines 252–289): clamp the
amount to the available credits, bail out on a non-positive amount,
compute the proportional burn (denominator `max(self.credits, 1)`) capped
at 10% of the current `rsc_held`, mutate holder and proposal, and return
the burned RSC.  The result is (holder, proposal, burn). -/
def deployCredits (cfg : Config) (stepCount : ℕ) (h : Holder)
    (p : Proposal) (amount0 : ℚ) : Holder × Proposal × ℚ :=
  let amount := if amount0 > h.credits then h.credits else amount0
  if amount ≤ 0 then (h, p, 0)
  else
    let creditRat := amount / max h.credits 1
    let rscBacking := h.rscHeld * creditRat * cfg.burnRate
    let burnAmount := min rscBacking (h.rscHeld * (1 / 10))
    let batches :=
      if h.creditExpiryEnabled then consumeBatches amount h.creditBatches
      else h.creditBatches
    let h1 := { h with
      credits := h.credits - amount,
      totalDeployed := h.totalDeployed + amount,
      creditBatches := batches,
      rscHeld := h.rscHeld - burnAmount,
      totalBurned := h.totalBurned + burnAmount,
      deployments := h.deployments ++
        [⟨stepCount, p.uniqueId, amount, burnAmount⟩] }
    (h1, p.receiveCredits h.uniqueId amount stepCount, burnAmount)

/-- Custom branch of `EndowmentHolder.__init__` (agents.py lines 80–87,
89–115): traits drawn by `random.random()`, yield threshold defaulted to
the model's `yield_threshold_mean`, RSC drawn by `randint(500, 20000)`.
Taken when `archetype` is `None` (label `"custom"`) or is not a key of the
archetype table — in that case the given label is kept.  The warm-start
check (agents.py line 97) is on the label, so a label `"institution"`
draws `randint(0, 52)` initial weeks even on this branch. -/
def mkCustomHolder (cfg : Config) (uid : ℕ) (label : String) (c : RC) :
    Holder × RC :=
  let (ma, c1) := cfg.rand c
  let (en, c2) := cfg.rand c1
  let (ps, c3) := cfg.rand c2
  let (hh, c4) := cfg.rand c3
  let (rsc, c5) := cfg.randintD 500 20000 c4
  let (weeks, c6) :=
    if label = "institution" then
      let (w, c6) := cfg.randintD 0 52 c5
      (w.toNat, c6)
    else (0, c5)
  (⟨uid, label, ma, en, ps, hh, (rsc : ℚ), (rsc : ℚ), weeks,
    cfg.yieldThresholdMean, cfg.creditExpiryEnabled, cfg.creditExpiryWeeks,
    [], 0, 0, 0, 0, [], true, 0, 1⟩, c6)

/-- Archetype branch of `EndowmentHolder.__init__` (agents.py lines
61–79, 89–115): traits uniform in the archetype's ranges, RSC from the
archetype's `rsc_range`, yield threshold `mean + offset + gauss(0, 0.01)`
floored at 0.01, institution warm start `randint(0, 52)`. -/
def mkArchHolder (cfg : Config) (uid : ℕ) (label : String)
    (arch : ArchSpec) (c : RC) : Holder × RC :=
  let (ma, c1) := cfg.uniformD arch.missionAlignment.1 arch.missionAlignment.2 c
  let (en, c2) := cfg.uniformD arch.engagement.1 arch.engagement.2 c1
  let (ps, c3) := cfg.uniformD arch.priceSensitivity.1 arch.priceSensitivity.2 c2
  let (hh, c4) := cfg.uniformD arch.holdHorizon.1 arch.holdHorizon.2 c3
  let (rsc, c5) := cfg.randintD arch.rscRange.1 arch.rscRange.2 c4
  let (noise, c6) := cfg.gaussD 0 (1 / 100) c5
  let yt := max (1 / 100) (cfg.yieldThresholdMean + arch.yieldThresholdOffset + noise)
  let (weeks, c7) :=
    if label = "institution" then
      let (w, c7) := cfg.randintD 0 52 c6
      (w.toNat, c7)
    else (0, c6)
  (⟨uid, label, ma, en, ps, hh, (rsc : ℚ), (rsc : ℚ), weeks, yt,
    cfg.creditExpiryEnabled, cfg.creditExpiryWeeks,
    [], 0, 0, 0, 0, [], true, 0, 1⟩, c7)

/-- `EndowmentHolder.__init__` specialised to the call sites in src
(`EndowmentModel._spawn_holders` and `_maybe_spawn_entrants`, which pass
only `archetype` and the expiry settings): dispatch between the archetype
branch (`archetype and archetype in ARCHETYPES`, agents.py line 63) and
the custom branch. -/
def mkHolder (cfg : Config) (uid : ℕ) (archetype : Option String)
    (c : RC) : Holder × RC :=
  match archetype with
  | none => mkCustomHolder cfg uid "custom" c
  | some a =>
      match lookupStr cfg.archetypes a with
      | some arch => mkArchHolder cfg uid a arch c
      | none => mkCustomHolder cfg uid a c

/-- Mutable state of an `EndowmentModel` between operations (model.py
lines 93–115): tracking totals, the holder and proposal collections, and
the random-stream cursor (the `events` log, per-step counters and the
data collector are not embedded — see the header comment). -/
structure ModelState where
  stepCount : ℕ
  totalBurned : ℚ
  totalCreditsGenerated : ℚ
  totalCreditsDeployed : ℚ
  cumulativeEmissions : ℚ
  proposalCounter : ℕ
  nextAgentId : ℕ
  holders : List Holder
  proposals : List Proposal
  rc : RC

/-- `EndowmentModel.weekly_emission` (model.py lines 164–168), with the
real-valued decay formula abstracted by `cfg.annualEmissionFn` (see the
header comment); the code computes `annual / 52`. -/
def ModelState.weeklyEmission (cfg : Config) (s : ModelState) : ℚ :=
  cfg.annualEmissionFn s.stepCount / 52

/-- `EndowmentModel.annual_emission` (model.py lines 170–173). -/
def ModelState.annualEmission (cfg : Config) (s : ModelState) : ℚ :=
  cfg.annualEmissionFn s.stepCount

/-- `EndowmentModel.total_rsc_held` (model.py lines 184–187): sum of
`rsc_held` over active holders, recomputed from the live holder list on
every access. -/
def ModelState.totalRscHeld (s : ModelState) : ℚ :=
  (s.holders.map (fun h => if h.active then h.rscHeld else 0)).sum

/-- `EndowmentModel.total_effective_rsc` (model.py lines 189–198): sum of
`rsc_held * time_weight_multiplier` over active holders, recomputed from
the live holder list on every access. -/
def ModelState.totalEffectiveRsc (s : ModelState) : ℚ :=
  (s.holders.map
    (fun h => if h.active then h.rscHeld * h.timeWeightMultiplier else 0)).sum

/-- `EndowmentModel.current_apy` (model.py lines 208–217):
`annual_emission / total_rsc_held`, 0 when the total is ≤ 0. -/
def ModelState.currentApy (cfg : Config) (s : ModelState) : ℚ :=
  if s.totalRscHeld ≤ 0 then 0 else s.annualEmission cfg / s.totalRscHeld

/-- Replace the holder at list position `idx` (the in-place mutation of a
holder referenced both from `self` and from `model.holders`). -/
def ModelState.withHolder (s : ModelState) (idx : ℕ) (h : Holder) :
    ModelState :=
  { s with holders := s.holders.set idx h }

/-- Replace the proposal at list position `idx`. -/
def ModelState.withProposal (s : ModelState) (idx : ℕ) (p : Proposal) :
    ModelState :=
  { s with proposals := s.proposals.set idx p }

/-- `EndowmentHolder._should_deploy` (agents.py lines 213–228).  Returns
the decision and the advanced cursor; no draw happens when `credits ≤ 0`.
`math.exp` is `cfg.expFn`. -/
def shouldDeploy (cfg : Config) (s : ModelState) (h : Holder) (c : RC) :
    Bool × RC :=
  if h.credits ≤ 0 then (false, c)
  else
    let baseProb := h.engagement * (3 / 5)
    let effectiveTotal := max s.totalEffectiveRsc 1
    let myEff := h.rscHeld * h.timeWeightMultiplier
    let weeklyRate := max (s.weeklyEmission cfg * (myEff / effectiveTotal)) 1
    let accumulationRat := h.credits / (weeklyRate * 4)
    let pressure := 1 / (1 + cfg.expFn (-2 * (accumulationRat - 1)))
    let pressureBoost := pressure * (3 / 10)
    let deployScale := cfg.deployProbability / (3 / 10)
    let finalProb := min ((baseProb + pressureBoost) * deployScale) (19 / 20)
    let (u, c1) := cfg.rand c
    (decide (u < finalProb), c1)

/-- Scoring loop of `EndowmentHolder._select_proposal` for mission-aligned
holders (agents.py lines 235–239): one noise draw per open proposal, in
list order.  Entries are (score, global index of the proposal). -/
def scoreProposals (cfg : Config) (ma : ℚ) :
    List (ℕ × Proposal) → RC → List (ℚ × ℕ) × RC
  | [], c => ([], c)
  | (i, p) :: rest, c =>
      let progress := p.fundingProgress / 100
      let (u, c1) := cfg.rand c
      let score := progress * ma + u * (1 - ma)
      let (restScored, c2) := scoreProposals cfg ma rest c1
      ((score, i) :: restScored, c2)

/-- Stable insertion into a descending-by-score list; embeds the stability
of Python's `list.sort(key=..., reverse=True)`: an element is placed
before the first strictly smaller score, after ties. -/
def insertDesc (x : ℚ × ℕ) : List (ℚ × ℕ) → List (ℚ × ℕ)
  | [] => [x]
  | y :: ys => if y.1 ≤ x.1 then x :: y :: ys else y :: insertDesc x ys

/-- Stable descending sort by score (Python `sort(..., reverse=True)`). -/
def sortDescByScore : List (ℚ × ℕ) → List (ℚ × ℕ)
  | [] => []
  | x :: xs => insertDesc x (sortDescByScore xs)

/-- `EndowmentHolder._select_proposal` (agents.py lines 230–243) over the
open proposals listed with their global indices: mission-aligned holders
(`mission_alignment > 0.5`) take the max-scoring candidate (stable
descending sort, first element), others pick `random.choice`.  Returns
the global index of the chosen proposal. -/
def selectProposal (cfg : Config) (h : Holder)
    (openProps : List (ℕ × Proposal)) (c : RC) : Option ℕ × RC :=
  match openProps with
  | [] => (none, c)
  | _ :: _ =>
      if h.missionAlignment > 1 / 2 then
        let (scored, c1) := scoreProposals cfg h.missionAlignment openProps c
        (((sortDescByScore scored).head?).map Prod.snd, c1)
      else
        let (k, c1) := cfg.choiceD openProps.length c
        ((openProps.get? k).map Prod.fst, c1)

/-- `EndowmentHolder._deploy_amount` (agents.py lines 245–250). -/
def deployAmount (cfg : Config) (h : Holder) (c : RC) : ℚ × RC :=
  let minFrac : ℚ := 1 / 20
  let maxFrac := 3 / 20 + h.engagement * (9 / 20)
  let (frac, c1) := cfg.uniformD minFrac maxFrac c
  (h.credits * frac, c1)

/-- Phase 1–2 of `EndowmentHolder.step` (agents.py lines 307–311) for the
holder at position `idx`: increment `weeks_held`, then expire old credits,
with the mutation visible in the model's holder list. -/
def phaseAdvance (s : ModelState) (idx : ℕ) : ModelState :=
  match s.holders.get? idx with
  | none => s
  | some h =>
      let h1 := { h with weeksHeld := h.weeksHeld + 1 }
      s.withHolder idx (h1.expireOldCredits s.stepCount)

/-- Phase 3 of `EndowmentHolder.step`: `_earn_credits` (agents.py lines
135–159).  `weekly_emission` and the live `total_effective_rsc` are read
from the model; the second component is the observed value of
`total_effective_rsc` (the denominator snapshot this holder actually
sees). -/
def phaseEarn (cfg : Config) (s : ModelState) (idx : ℕ) :
    ModelState × ℚ :=
  let effectiveTotal := s.totalEffectiveRsc
  match s.holders.get? idx with
  | none => (s, effectiveTotal)
  | some h =>
      if effectiveTotal ≤ 0 then (s, effectiveTotal)
      else
        let myEff := h.rscHeld * h.timeWeightMultiplier
        let newCredits := s.weeklyEmission cfg * (myEff / effectiveTotal)
        let h1 := { h with
          credits := h.credits + newCredits,
          creditBatches :=
            if h.creditExpiryEnabled then
              h.creditBatches ++ [(s.stepCount, newCredits)]
            else h.creditBatches }
        (s.withHolder idx h1, effectiveTotal)

/-- Phase 4 of `EndowmentHolder.step` (agents.py lines 316–327): decide
whether to deploy, select an open proposal, draw the amount, deploy, and
maintain the idle counter. -/
def phaseDeploy (cfg : Config) (s : ModelState) (idx : ℕ) : ModelState :=
  match s.holders.get? idx with
  | none => s
  | some h =>
      let (deploy, c1) := shouldDeploy cfg s h s.rc
      if deploy then
        let openProps := s.proposals.enum.filter (fun x => x.2.status = .opened)
        let (choice, c2) := selectProposal cfg h openProps c1
        match choice with
        | some pIdx =>
            match s.proposals.get? pIdx with
            | some p =>
                let (amount, c3) := deployAmount cfg h c2
                let r := deployCredits cfg s.stepCount h p amount
                let s1 := (s.withHolder idx
                  { r.1 with consecutiveIdleSteps := 0 }).withProposal pIdx r.2.1
                { s1 with rc := c3 }
            | none => { s with rc := c2 }
        | none =>
            { (s.withHolder idx
                { h with consecutiveIdleSteps := h.consecutiveIdleSteps + 1 })
              with rc := c2 }
      else
        { (s.withHolder idx
            { h with consecutiveIdleSteps := h.consecutiveIdleSteps + 1 })
          with rc := c1 }

/-- Phase 5 of `EndowmentHolder.step`: `_consider_exit` (agents.py lines
180–207).  No draw when the live APY is at or above the personal
threshold; otherwise one draw against the dampened exit probability. -/
def phaseExit (cfg : Config) (s : ModelState) (idx : ℕ) : ModelState :=
  match s.holders.get? idx with
  | none => s
  | some h =>
      let apy := s.currentApy cfg
      if apy ≥ h.yieldThreshold then s
      else
        let gap := min ((h.yieldThreshold - apy) / max h.yieldThreshold (1 / 1000)) 1
        let exitProb := gap * h.priceSensitivity * (3 / 20) * (1 - h.holdHorizon * (4 / 5))
        let (u, c1) := cfg.rand s.rc
        if u < exitProb then
          { s.withHolder idx { h with active := false } with rc := c1 }
        else { s with rc := c1 }

/-- `EndowmentHolder.step` (agents.py lines 295–330) for the holder at
position `idx`: immediate return for inactive holders, otherwise the five
phases in order.  The second component is the observed
`total_effective_rsc` of the earn phase (`none` when the holder was
skipped). -/
def holderStepAt (cfg : Config) (s : ModelState) (idx : ℕ) :
    ModelState × Option ℚ :=
  match s.holders.get? idx with
  | none => (s, none)
  | some h =>
      if h.active then
        let s1 := phaseAdvance s idx
        let (s2, obs) := phaseEarn cfg s1 idx
        let s3 := phaseDeploy cfg s2 idx
        (phaseExit cfg s3 idx, some obs)
      else (s, none)

/-- The shuffled holder pass of `EndowmentModel.step`
(`self.agents.shuffle_do("step")`, model.py line 424): visit the holders
in the given order, collecting each holder's observed
`total_effective_rsc`. -/
def holderPass (cfg : Config) : List ℕ → ModelState →
    ModelState × List (Option ℚ)
  | [], s => (s, [])
  | idx :: rest, s =>
      let (s1, obs) := holderStepAt cfg s idx
      let (s2, obsRest) := holderPass cfg rest s1
      (s2, obs :: obsRest)

/-- `EndowmentModel.next_proposal_id` + `add_proposal` (model.py lines
280–292): increment the proposal counter and append a fresh open proposal
whose funding target is `randint(funding_target_min, funding_target_max)`
(the call sites in src never pass an explicit target). -/
def addProposal (cfg : Config) (s : ModelState) : ModelState :=
  let counter := s.proposalCounter + 1
  let (ft, c1) := cfg.randintD cfg.fundingTargetMin cfg.fundingTargetMax s.rc
  let p : Proposal :=
    ⟨counter, (ft : ℚ), 0, [], .opened, s.stepCount, none, none⟩
  { s with proposalCounter := counter, proposals := s.proposals ++ [p],
           rc := c1 }

/-- Backer refund on failure under `failure_mode == "partial_refund"`
(model.py lines 302–306): give the first holder carrying the backer's id
half the contributed credits back, if it is still active. -/
def applyRefund : List Holder → ℕ → ℚ → List Holder
  | [], _, _ => []
  | h :: rest, holderId, v =>
      if h.uniqueId = holderId then
        (if h.active then { h with credits := h.credits + v * (1 / 2) } else h)
          :: rest
      else h :: applyRefund rest holderId v

/-- Body of the loop in `EndowmentModel.resolve_funded_proposals`
(model.py lines 296–306) for the proposal at position `idx`: when it has
been funded in an earlier step, draw the Bernoulli outcome against
`success_rate`, resolve it, and on failure apply partial refunds if
configured. -/
def resolveAt (cfg : Config) (s : ModelState) (idx : ℕ) : ModelState :=
  match s.proposals.get? idx with
  | none => s
  | some p =>
      match p.stepFunded with
      | none => s
      | some f =>
          if f < s.stepCount then
            let (u, c1) := cfg.rand s.rc
            let success := decide (u < cfg.successRate)
            let s0 := s.withProposal idx (p.resolve success s.stepCount)
            let s1 := { s0 with rc := c1 }
            if success = false ∧ cfg.failureMode = .partialRefund then
              let hs1 := p.backers.foldl
                (fun hs b => applyRefund hs b.1 b.2) s1.holders
              { s1 with holders := hs1 }
            else s1
          else s

/-- `EndowmentModel.resolve_funded_proposals` (model.py lines 294–306):
snapshot the positions of the currently funded proposals, then resolve
each eligible one in list order. -/
def resolveFundedProposals (cfg : Config) (s : ModelState) : ModelState :=
  let fundedIdxs :=
    ((s.proposals.enum.filter (fun x => x.2.status = .funded)).map Prod.fst)
  fundedIdxs.foldl (resolveAt cfg) s

/-- Append `n` fresh `yield_seeker` holders (model.py lines 261–269). -/
def spawnSeekers (cfg : Config) : ℕ → ModelState → ModelState
  | 0, s => s
  | n + 1, s =>
      let (h, c1) := mkHolder cfg s.nextAgentId (some "yield_seeker") s.rc
      spawnSeekers cfg n
        { s with holders := s.holders ++ [h],
                 nextAgentId := s.nextAgentId + 1, rc := c1 }

/-- `EndowmentModel._maybe_spawn_entrants` (model.py lines 244–274):
when the live APY exceeds `yield_threshold_mean * 1.1`, draw against the
spawn probability and on success add `randint(1, 3)` new yield seekers. -/
def maybeSpawnEntrants (cfg : Config) (s : ModelState) : ModelState :=
  let apy := s.currentApy cfg
  let entryThreshold := cfg.yieldThresholdMean * (11 / 10)
  if apy > entryThreshold then
    let attractiveness := min ((apy - entryThreshold) / entryThreshold) 1
    let spawnProb := attractiveness * (3 / 20)
    let (u, c1) := cfg.rand s.rc
    if u < spawnProb then
      let (nNew, c2) := cfg.randintD 1 3 c1
      spawnSeekers cfg nNew.toNat { s with rc := c2 }
    else { s with rc := c1 }
  else s

/-- `EndowmentModel.maybe_spawn_proposal` (model.py lines 308–312): with
fewer than 5 open proposals, a 30% draw adds one more. -/
def maybeSpawnProposal (cfg : Config) (s : ModelState) : ModelState :=
  let openCount := (s.proposals.filter (fun p => p.status = .opened)).length
  if openCount < 5 then
    let (u, c1) := cfg.rand s.rc
    if u < 3 / 10 then addProposal cfg { s with rc := c1 }
    else { s with rc := c1 }
  else s

/-- Increment of `step_count` at the top of `EndowmentModel.step`
(model.py line 412); the state every holder of the subsequent pass runs
against. -/
def stepPre (s : ModelState) : ModelState :=
  { s with stepCount := s.stepCount + 1 }

/-- Aggregate updates after the holder pass (model.py lines 432–437):
`cumulative_emissions`, recomputed deployment/burn totals, and the
cumulative credits generated. -/
def updateTotals (cfg : Config) (s : ModelState) : ModelState :=
  { s with
    cumulativeEmissions := s.cumulativeEmissions + s.weeklyEmission cfg,
    totalCreditsDeployed := (s.holders.map Holder.totalDeployed).sum,
    totalBurned := (s.holders.map Holder.totalBurned).sum,
    totalCreditsGenerated := s.totalCreditsGenerated + s.weeklyEmission cfg }

/-- `EndowmentModel.step` (model.py lines 410–449) with the per-step
shuffle order supplied by the environment: increment the step counter,
run the shuffled holder pass, update totals, resolve funded proposals,
maybe spawn entrants, maybe spawn a proposal. -/
def ModelState.step (cfg : Config) (order : List ℕ) (s : ModelState) :
    ModelState :=
  let s1 := stepPre s
  let s2 := (holderPass cfg order s1).1
  let s3 := updateTotals cfg s2
  let s4 := resolveFundedProposals cfg s3
  let s5 := maybeSpawnEntrants cfg s4
  maybeSpawnProposal cfg s5

/-- Python's `round` (banker's rounding, ties to even), used by
`_spawn_holders` on `count * fraction`. -/
def pythonRound (x : ℚ) : ℤ :=
  let f := ⌊x⌋
  let r := x - (f : ℚ)
  if r < 1 / 2 then f
  else if 1 / 2 < r then f + 1
  else if f % 2 = 0 then f else f + 1

/-- Stable insertion into a descending-by-fraction mix list (Python
`sorted(..., key=lambda x: x[1], reverse=True)` is stable). -/
def insertMixDesc (x : String × ℚ) :
    List (String × ℚ) → List (String × ℚ)
  | [] => [x]
  | y :: ys => if y.2 ≤ x.2 then x :: y :: ys else y :: insertMixDesc x ys

/-- Stable descending sort of the archetype mix by fraction. -/
def sortMixDesc : List (String × ℚ) → List (String × ℚ)
  | [] => []
  | x :: xs => insertMixDesc x (sortMixDesc xs)

/-- Per-archetype holder counts of `EndowmentModel._spawn_holders`
(model.py lines 223–232): rounded shares for all but the last archetype
in descending-fraction order, remainder (floored at 0) for the last.
Python's `range(n)` runs zero times for negative `n`, hence `toNat`. -/
def archetypeCounts (mix : List (String × ℚ)) (count : ℕ) :
    List (String × ℕ) :=
  let sortedMix := sortMixDesc mix
  match sortedMix.getLast? with
  | none => []
  | some last =>
      let front := sortedMix.dropLast
      let pairs := front.map (fun x => (x.1, pythonRound ((count : ℚ) * x.2)))
      let remaining := (count : ℤ) - (pairs.map Prod.snd).sum
      pairs.map (fun x => (x.1, x.2.toNat)) ++ [(last.1, (max remaining 0).toNat)]

/-- Append `n` holders of the given archetype (inner loop of
`_spawn_holders`, model.py lines 234–242). -/
def spawnArchHolders (cfg : Config) (archId : String) :
    ℕ → ModelState → ModelState
  | 0, s => s
  | n + 1, s =>
      let (h, c1) := mkHolder cfg s.nextAgentId (some archId) s.rc
      spawnArchHolders cfg archId n
        { s with holders := s.holders ++ [h],
                 nextAgentId := s.nextAgentId + 1, rc := c1 }

/-- `EndowmentModel._spawn_holders` (model.py lines 223–242). -/
def spawnHolders (cfg : Config) (count : ℕ) (s : ModelState) : ModelState :=
  (archetypeCounts cfg.archetypeMix count).foldl
    (fun s x => spawnArchHolders cfg x.1 x.2 s) s

/-- Create the initial proposals (model.py lines 113–115). -/
def spawnProposals (cfg : Config) : ℕ → ModelState → ModelState
  | 0, s => s
  | n + 1, s => spawnProposals cfg n (addProposal cfg s)

/-- `EndowmentModel.__init__` (model.py lines 40–158) after parameter
defaulting: zeroed tracking state, the archetype-distributed holder
population, then the initial proposals.  Mesa's base `Model.__init__`
draws its own internal seed from the not-yet-seeded global generator
before `random.seed(seed)` runs, so the seeded stream starts fresh at
holder creation. -/
def EndowmentModel.init (cfg : Config) (c0 : RC) : ModelState :=
  let s0 : ModelState :=
    ⟨0, 0, 0, 0, 0, 0, 1, [], [], c0⟩
  spawnProposals cfg cfg.numProposals (spawnHolders cfg cfg.numHolders s0)

/-- `EndowmentModel.run_steps` seen from a fresh model: the state after
constructing the model and calling `step()` `n` times, with the per-step
shuffle orders supplied by the environment `shuffles`. -/
def runSteps (cfg : Config) (c0 : RC) (shuffles : ℕ → List ℕ) :
    ℕ → ModelState
  | 0 => EndowmentModel.init cfg c0
  | n + 1 =>
      (runSteps cfg c0 shuffles n).step cfg (shuffles n)

/-- `EndowmentModel.annual_emission` (model.py lines 170–173):
`year0_emission / 2^(t_years / half_life_years)` with
`t_years = step_count / 52`.  Stated over an arbitrary field with the
base-2 power passed as `pow2` so the definition stays executable; the
emission-schedule theorems instantiate it at `ℝ` with `pow2 x = 2 ^ x`
(`Real.rpow`). -/
def annual_emission {K : Type} [Field K] (pow2 : K → K)
    (year0_emission half_life_years : K) (step_count : ℕ) : K :=
  let t_years : K := (step_count : K) / 52
  year0_emission / pow2 (t_years / half_life_years)

/-- `EndowmentModel.weekly_emission` (model.py lines 164–168): the code
recomputes the decay formula and divides by 52 (it does not call
`annual_emission`). -/
def weekly_emission {K : Type} [Field K] (pow2 : K → K)
    (year0_emission half_life_years : K) (step_count : ℕ) : K :=
  let t_years : K := (step_count : K) / 52
  (year0_emission / pow2 (t_years / half_life_years)) / 52

/-- The archetype table used by concrete runs below.  The four trait-range
pairs `mission_alignment`, `engagement`, `price_sensitivity` follow the
`ARCHETYPES` table of `src/constants.py`; the fields `hold_horizon`,
`rsc_range` and `yield_threshold_offset` are absent from src (Modelled
from the spec: §4.2 trait sampling) and carry representative values — no
theorem depends on them. -/
def defaultArchetypes : List (String × ArchSpec) :=
  [("believer",
    ⟨(7/10, 1), (3/5, 9/10), (0, 3/10), (7/10, 1), (1000, 50000), -(1/50)⟩),
   ("yield_seeker",
    ⟨(1/10, 2/5), (3/10, 3/5), (3/5, 1), (1/10, 2/5), (500, 20000), 1/50⟩),
   ("governance",
    ⟨(7/10, 1), (1/2, 4/5), (1/5, 1/2), (2/5, 4/5), (1000, 30000), 0⟩),
   ("speculator",
    ⟨(0, 1/5), (1/20, 1/5), (4/5, 1), (0, 3/10), (500, 40000), 3/100⟩)]

/-- Start cursor of the seeded random streams. -/
def rc0 : RC := ⟨0, 0⟩

/-- The error raised by `get_archetype` (constants.py line 138): a
`ValueError` whose message names the invalid id and the list of valid
keys. -/
structure UnknownArchetype where
  invalidId : String
  validKeys : List String
deriving DecidableEq, Repr

/-- `get_archetype` (constants.py lines 135–139), over an explicit
archetype table: membership test first, error on failure. -/
def get_archetype (table : List (String × ArchSpec))
    (archetype_id : String) : Except UnknownArchetype ArchSpec :=
  match lookupStr table archetype_id with
  | none => .error ⟨archetype_id, table.map Prod.fst⟩
  | some a => .ok a

/-! ### Concrete configurations used by the run-level examples -/

/-- Unit-stream prefix of `cfgC1`: per holder the draws are
mission alignment, engagement, price sensitivity, hold horizon, RSC. -/
def uListC1 : List ℚ := [1, 1, 0, 0, 0, 1, 1, 0, 0, 0]

/-- Two identical fully-engaged holders, one open proposal, full burn
rate: the live recomputation of `total_effective_rsc` makes the second
holder to act earn (and then deploy) more than the first. -/
def cfgC1 : Config :=
  { numHolders := 2, numProposals := 1, burnRate := 1, successRate := 0,
    fundingTargetMin := 1000, fundingTargetMax := 1000,
    deployProbability := 3 / 10, archetypeMix := [("h", 1)],
    yieldThresholdMean := 10, creditExpiryEnabled := false,
    creditExpiryWeeks := 8, failureMode := .nothing, archetypes := [],
    annualEmissionFn := fun _ => 5200, expFn := fun _ => 0,
    unitStream := fun i => uListC1.getD i (1 / 2),
    gaussStream := fun _ => 0 }

/-- Unit-stream prefix of `cfgC2`: per holder the draws are the four
traits, the RSC draw, and the institution warm-start draw
(`3/53` makes `randint(0, 52)` return 3 weeks). -/
def uListC2 : List ℚ := [0, 0, 0, 0, 0, 3 / 53, 0, 0, 0, 0, 0, 3 / 53]

/-- Two institution holders warm-started at 3 weeks held: during the next
pass each one's week advance pushes it across the 4-week multiplier
boundary, so consecutive holders observe different live values of
`total_effective_rsc`. -/
def cfgC2 : Config :=
  { numHolders := 2, numProposals := 0, burnRate := 0, successRate := 0,
    fundingTargetMin := 1000, fundingTargetMax := 1000,
    deployProbability := 0, archetypeMix := [("institution", 1)],
    yieldThresholdMean := 0, creditExpiryEnabled := false,
    creditExpiryWeeks := 8, failureMode := .nothing, archetypes := [],
    annualEmissionFn := fun _ => 0, expFn := fun _ => 0,
    unitStream := fun i => uListC2.getD i 0,
    gaussStream := fun _ => 0 }

/-- Unit-stream prefix of `cfg7`: the holder's mission alignment and
engagement; every stream value is below 1. -/
def uList7 : List ℚ := [9 / 10, 9 / 10]

/-- One holder, one proposal with funding target 1, success rate 1: the
holder funds the proposal in step 1 and the orchestrator resolves it to
`completed` in step 2. -/
def cfg7 : Config :=
  { numHolders := 1, numProposals := 1, burnRate := 0, successRate := 1,
    fundingTargetMin := 1, fundingTargetMax := 1,
    deployProbability := 3 / 10, archetypeMix := [("h", 1)],
    yieldThresholdMean := 1 / 10, creditExpiryEnabled := false,
    creditExpiryWeeks := 8, failureMode := .nothing, archetypes := [],
    annualEmissionFn := fun _ => 5200, expFn := fun _ => 0,
    unitStream := fun i => uList7.getD i (1 / 2),
    gaussStream := fun _ => 0 }

/-- A configuration carrying the full archetype table (for the archetype
validation examples) and the burn rate `0.02` (for the deployment
accounting examples). -/
def cfgC4 : Config :=
  { numHolders := 0, numProposals := 0, burnRate := 1 / 50,
    successRate := 0, fundingTargetMin := 1000, fundingTargetMax := 1000,
    deployProbability := 0, archetypeMix := [], yieldThresholdMean := 1 / 20,
    creditExpiryEnabled := false, creditExpiryWeeks := 8,
    failureMode := .nothing, archetypes := defaultArchetypes,
    annualEmissionFn := fun _ => 0, expFn := fun _ => 0,
    unitStream := fun _ => 0, gaussStream := fun _ => 0 }

/-- A holder with a fractional credit balance `1/2` (possible after
partial deployments), used to exercise the burn-denominator clamp
`max(credits, 1)`. -/
def hC5 : Holder :=
  ⟨0, "custom", 0, 0, 0, 0, 100, 100, 0, 0, false, 8, [], 0, 1 / 2, 0, 0,
    [], true, 0, 1⟩

/-- An open proposal used by the deployment accounting examples. -/
def pC5 : Proposal := ⟨1, 1000, 0, [], .opened, 0, none, none⟩

/-- Sum of the cumulative contributions in a proposal's backer ledger. -/
def backersSum (l : List (ℕ × ℚ)) : ℚ :=
  (l.map Prod.snd).sum

/-- Numeric health of one holder: non-negative RSC and credits,
non-negative expiry batches summing to at most the credit balance, and an
empty ledger when expiry is disabled (the ledger is touched only on the
`credit_expiry_enabled` paths). -/
def HolderOk (h : Holder) : Prop :=
  0 ≤ h.rscHeld ∧ 0 ≤ h.credits ∧ (∀ b ∈ h.creditBatches, 0 ≤ b.2) ∧
    batchSum h.creditBatches ≤ h.credits ∧
    (h.creditExpiryEnabled = false → h.creditBatches = [])

/-- Non-negative backer entries of one proposal. -/
def PropOk (p : Proposal) : Prop :=
  ∀ b ∈ p.backers, 0 ≤ b.2

/-- Joint numeric invariant of a model state. -/
def StateOk (s : ModelState) : Prop :=
  (∀ h ∈ s.holders, HolderOk h) ∧ (∀ p ∈ s.proposals, PropOk p)

/-- Backer-ledger/accumulator agreement of one proposal. -/
def PropSumOk (p : Proposal) : Prop :=
  backersSum p.backers = p.creditsReceived

/-- Statewise proposal invariant of the lifecycle state machine:
`open` proposals have no funding timestamp, non-`open` proposals have met
their funding target. -/
def C6St (p : Proposal) : Prop :=
  (p.status = .opened → p.stepFunded = none) ∧
  (p.status ≠ .opened → p.fundingTarget ≤ p.creditsReceived)

/-- Permitted status transitions of the proposal state machine: the pair
belongs to the reflexive-transitive order `open → funded → completed` /
`open → funded → failed` (completed and failed are terminal and
incomparable). -/
def statusStepOk : PStatus → PStatus → Bool
  | .opened, _ => true
  | .funded, .opened => false
  | .funded, _ => true
  | .completed, .completed => true
  | .completed, _ => false
  | .failed, .failed => true
  | .failed, _ => false

/-- Pointwise relation between a proposal and a later version of itself:
it keeps its id, moves along permitted status transitions, never loses
received credits, and never changes a set funding timestamp. -/
def PropEvolve (p q : Proposal) : Prop :=
  p.uniqueId = q.uniqueId ∧ statusStepOk p.status q.status = true ∧
  p.creditsReceived ≤ q.creditsReceived ∧
  (∀ f, p.stepFunded = some f → q.stepFunded = some f)

/-- Evolution of the proposal collection across one or more steps:
proposals are only appended, and each position evolves pointwise. -/
def ProposalsEvolve (ps qs : List Proposal) : Prop :=
  ps.length ≤ qs.length ∧
  ∀ i (hp : i < ps.length) (hq : i < qs.length),
    PropEvolve (ps.get ⟨i, hp⟩) (qs.get ⟨i, hq⟩)

/-- The snapshot of funded positions taken by
`resolve_funded_proposals`. -/
def fundedIdxs (s : ModelState) : List ℕ :=
  (s.proposals.enum.filter (fun x => x.2.status = .funded)).map Prod.fst

/-- Sampling hypotheses for the numeric invariant: unit draws in `[0,1]`
(`random.random()` really takes values in `[0,1)`), a non-negative
emission schedule (the real formula is strictly positive), and
non-negative `rsc_range` bounds in the archetype table. -/
def CfgOk (cfg : Config) : Prop :=
  (∀ i, 0 ≤ cfg.unitStream i ∧ cfg.unitStream i ≤ 1) ∧
  (∀ t, 0 ≤ cfg.annualEmissionFn t) ∧
  (∀ x ∈ cfg.archetypes, 0 ≤ x.2.rscRange.1 ∧ 0 ≤ x.2.rscRange.2)

/-- What the holder pass can do to a single proposal: receive credits
(possibly several times), which preserves the resolution timestamp and
the target, and changes the status only by funding an open proposal with
the current step recorded. -/
def PassEvolve (n : ℕ) (p q : Proposal) : Prop :=
  q.stepResolved = p.stepResolved ∧ q.fundingTarget = p.fundingTarget ∧
  ((q.status = p.status ∧ q.stepFunded = p.stepFunded) ∨
   (p.status = .opened ∧ q.status = .funded ∧ q.stepFunded = some n))

/-- Statewise timing facts that hold after every completed step when the
step counter reads `n`: funding steps never exceed `n`, open proposals
carry no timestamps, and a resolution step strictly exceeds the funding
step and is at most `n`. -/
def C7aSt (n : ℕ) (p : Proposal) : Prop :=
  (∀ f, p.stepFunded = some f → f ≤ n) ∧
  (p.status = .opened → p.stepFunded = none ∧ p.stepResolved = none) ∧
  (∀ r, p.stepResolved = some r →
    r ≤ n ∧ ∃ f, p.stepFunded = some f ∧ f < r)

/-- Statewise invariant of the always-succeeding regime: after a step
leaving the counter at `n`, a proposal funded at step `n` is still
`funded`, and one funded strictly earlier has been resolved to
`completed` exactly one step after funding. -/
def C7bSt (n : ℕ) (p : Proposal) : Prop :=
  ∀ f, p.stepFunded = some f →
    (f = n → p.status = .funded) ∧
    (f < n → p.status = .completed ∧ p.stepResolved = some (f + 1))

/-! ### Frame lemmas: which parts of the state each operation can touch -/

theorem withHolder_proposals (s : ModelState) (idx : ℕ) (h : Holder) :
    (s.withHolder idx h).proposals = s.proposals := rfl

theorem withHolder_stepCount (s : ModelState) (idx : ℕ) (h : Holder) :
    (s.withHolder idx h).stepCount = s.stepCount := rfl

theorem phaseAdvance_proposals (s : ModelState) (idx : ℕ) :
    (phaseAdvance s idx).proposals = s.proposals := by
  unfold phaseAdvance
  cases s.holders.get? idx <;> rfl

theorem phaseAdvance_stepCount (s : ModelState) (idx : ℕ) :
    (phaseAdvance s idx).stepCount = s.stepCount := by
  unfold phaseAdvance
  cases s.holders.get? idx <;> rfl

theorem phaseEarn_proposals (cfg : Config) (s : ModelState) (idx : ℕ) :
    (phaseEarn cfg s idx).1.proposals = s.proposals := by
  unfold phaseEarn
  cases s.holders.get? idx with
  | none => rfl
  | some h => by_cases hle : s.totalEffectiveRsc ≤ 0 <;> simp [hle] <;> rfl

theorem phaseEarn_stepCount (cfg : Config) (s : ModelState) (idx : ℕ) :
    (phaseEarn cfg s idx).1.stepCount = s.stepCount := by
  unfold phaseEarn
  cases s.holders.get? idx with
  | none => rfl
  | some h => by_cases hle : s.totalEffectiveRsc ≤ 0 <;> simp [hle] <;> rfl

theorem phaseExit_proposals (cfg : Config) (s : ModelState) (idx : ℕ) :
    (phaseExit cfg s idx).proposals = s.proposals := by
  unfold phaseExit
  cases s.holders.get? idx with
  | none => rfl
  | some h =>
      simp only []
      by_cases hge : s.currentApy cfg ≥ h.yieldThreshold <;> simp [hge] <;>
        split <;> rfl

theorem phaseExit_stepCount (cfg : Config) (s : ModelState) (idx : ℕ) :
    (phaseExit cfg s idx).stepCount = s.stepCount := by
  unfold phaseExit
  cases s.holders.get? idx with
  | none => rfl
  | some h =>
      simp only []
      by_cases hge : s.currentApy cfg ≥ h.yieldThreshold <;> simp [hge] <;>
        split <;> rfl

theorem phaseDeploy_stepCount (cfg : Config) (s : ModelState) (idx : ℕ) :
    (phaseDeploy cfg s idx).stepCount = s.stepCount := by
  unfold phaseDeploy
  dsimp only
  repeat' split
  all_goals rfl

theorem holderStepAt_stepCount (cfg : Config) (s : ModelState) (idx : ℕ) :
    (holderStepAt cfg s idx).1.stepCount = s.stepCount := by
  unfold holderStepAt
  split
  · rfl
  · split
    · rw [phaseExit_stepCount, phaseDeploy_stepCount, phaseEarn_stepCount,
        phaseAdvance_stepCount]
    · rfl

theorem holderPass_stepCount (cfg : Config) (order : List ℕ) (s : ModelState) :
    (holderPass cfg order s).1.stepCount = s.stepCount := by
  induction order generalizing s with
  | nil => rfl
  | cons i rest ih =>
      simp only [holderPass]
      rw [ih, holderStepAt_stepCount]

theorem resolveAt_stepCount (cfg : Config) (s : ModelState) (idx : ℕ) :
    (resolveAt cfg s idx).stepCount = s.stepCount := by
  unfold resolveAt
  dsimp only
  repeat' split
  all_goals rfl

theorem resolveFunded_stepCount (cfg : Config) (s : ModelState) :
    (resolveFundedProposals cfg s).stepCount = s.stepCount := by
  unfold resolveFundedProposals
  generalize (((s.proposals.enum.filter
    (fun x => x.2.status = .funded)).map Prod.fst)) = idxs
  induction idxs generalizing s with
  | nil => rfl
  | cons i rest ih => rw [List.foldl_cons, ih, resolveAt_stepCount]

theorem spawnSeekers_stepCount (cfg : Config) (n : ℕ) (s : ModelState) :
    (spawnSeekers cfg n s).stepCount = s.stepCount := by
  induction n generalizing s with
  | zero => rfl
  | succ m ih => simpa [spawnSeekers] using ih _

theorem maybeSpawnEntrants_stepCount (cfg : Config) (s : ModelState) :
    (maybeSpawnEntrants cfg s).stepCount = s.stepCount := by
  unfold maybeSpawnEntrants
  dsimp only
  repeat' split
  all_goals simp [spawnSeekers_stepCount]

theorem addProposal_stepCount (cfg : Config) (s : ModelState) :
    (addProposal cfg s).stepCount = s.stepCount := rfl

theorem maybeSpawnProposal_stepCount (cfg : Config) (s : ModelState) :
    (maybeSpawnProposal cfg s).stepCount = s.stepCount := by
  unfold maybeSpawnProposal
  dsimp only
  repeat' split
  all_goals rfl

theorem step_stepCount (cfg : Config) (order : List ℕ) (s : ModelState) :
    (s.step cfg order).stepCount = s.stepCount + 1 := by
  unfold ModelState.step
  rw [maybeSpawnProposal_stepCount, maybeSpawnEntrants_stepCount,
    resolveFunded_stepCount]
  show (holderPass cfg order (stepPre s)).1.stepCount = s.stepCount + 1
  rw [holderPass_stepCount]
  rfl

theorem runSteps_stepCount (cfg : Config) (c0 : RC) (sh : ℕ → List ℕ)
    (n : ℕ) : (runSteps cfg c0 sh n).stepCount = n := by
  induction n with
  | zero =>
      show (spawnProposals cfg cfg.numProposals
        (spawnHolders cfg cfg.numHolders _)).stepCount = 0
      have hadd : ∀ m s, (spawnProposals cfg m s).stepCount = s.stepCount := by
        intro m
        induction m with
        | zero => intro s; rfl
        | succ k ih => intro s; simpa [spawnProposals, addProposal_stepCount] using ih _
      have harch : ∀ aid m s,
          (spawnArchHolders cfg aid m s).stepCount = s.stepCount := by
        intro aid m
        induction m with
        | zero => intro s; rfl
        | succ k ih => intro s; simpa [spawnArchHolders] using ih _
      have hsp : ∀ s, (spawnHolders cfg cfg.numHolders s).stepCount = s.stepCount := by
        intro s
        unfold spawnHolders
        generalize archetypeCounts cfg.archetypeMix cfg.numHolders = cnts
        induction cnts generalizing s with
        | nil => rfl
        | cons x rest ih => rw [List.foldl_cons, ih, harch]
      rw [hadd, hsp]
  | succ m ih => rw [runSteps, step_stepCount, ih]

theorem runSteps_congr_shuffles (cfg : Config) (c0 : RC)
    (sh1 sh2 : ℕ → List ℕ) (n : ℕ) (h : ∀ k, k < n → sh1 k = sh2 k) :
    runSteps cfg c0 sh1 n = runSteps cfg c0 sh2 n := by
  induction n with
  | zero => rfl
  | succ m ih =>
      show (runSteps cfg c0 sh1 m).step cfg (sh1 m) =
           (runSteps cfg c0 sh2 m).step cfg (sh2 m)
      rw [h m (Nat.lt_succ_self m), ih (fun k hk => h k (Nat.lt_succ_of_lt hk))]

/-! ### Invariants -/

theorem statusStepOk_refl (a : PStatus) : statusStepOk a a = true := by
  cases a <;> rfl

theorem statusStepOk_trans {a b c : PStatus} (h1 : statusStepOk a b = true)
    (h2 : statusStepOk b c = true) : statusStepOk a c = true := by
  cases a <;> cases b <;> cases c <;> simp_all [statusStepOk]

theorem propEvolve_refl (p : Proposal) : PropEvolve p p :=
  ⟨rfl, statusStepOk_refl _, le_refl _, fun _ hf => hf⟩

theorem proposalsEvolve_refl (ps : List Proposal) : ProposalsEvolve ps ps :=
  ⟨le_refl _, fun i hp hq => propEvolve_refl _⟩

theorem proposalsEvolve_trans {ps qs rs : List Proposal}
    (h1 : ProposalsEvolve ps qs) (h2 : ProposalsEvolve qs rs) :
    ProposalsEvolve ps rs := by
  obtain ⟨hl1, he1⟩ := h1
  obtain ⟨hl2, he2⟩ := h2
  refine ⟨le_trans hl1 hl2, fun i hp hr => ?_⟩
  have hq : i < qs.length := lt_of_lt_of_le hp hl1
  obtain ⟨a1, b1, c1, d1⟩ := he1 i hp hq
  obtain ⟨a2, b2, c2, d2⟩ := he2 i hq hr
  exact ⟨a1.trans a2, statusStepOk_trans b1 b2, le_trans c1 c2,
    fun f hf => d2 f (d1 f hf)⟩

theorem proposalsEvolve_set {ps : List Proposal} {i : ℕ} {p q : Proposal}
    (hget : ps.get? i = some p) (hpq : PropEvolve p q) :
    ProposalsEvolve ps (ps.set i q) := by
  refine ⟨by simp, fun j hj hj2 => ?_⟩
  by_cases hij : i = j
  · subst hij
    have h1 : ps.get ⟨i, hj⟩ = p := by
      rw [List.get?_eq_get hj] at hget
      exact Option.some_injective _ hget
    have h2 : (ps.set i q).get ⟨i, hj2⟩ = q := List.get_set_eq hj2
    rw [h1, h2]
    exact hpq
  · have h2 : (ps.set i q).get ⟨j, hj2⟩ = ps.get ⟨j, hj⟩ :=
      List.get_set_ne hij hj2
    rw [h2]
    exact propEvolve_refl _

theorem proposalsEvolve_append (ps qs : List Proposal) :
    ProposalsEvolve ps (ps ++ qs) := by
  refine ⟨by simp, fun i hp hq => ?_⟩
  have : (ps ++ qs).get ⟨i, hq⟩ = ps.get ⟨i, hp⟩ :=
    List.get_append _ hp
  rw [this]
  exact propEvolve_refl _

theorem list_set_self {α : Type} (l : List α) (i : ℕ) (a : α)
    (h : l.get? i = some a) : l.set i a = l := by
  apply List.ext_get
  · simp
  · intro n h1 h2
    by_cases hin : i = n
    · subst hin
      rw [List.get_set_eq h1]
      rw [List.get?_eq_get h2] at h
      exact (Option.some_injective _ h).symm
    · exact List.get_set_ne hin h1

/-! ### Lemmas about the proposal operations -/

theorem backersSum_addBacker (l : List (ℕ × ℚ)) (hid : ℕ) (a : ℚ) :
    backersSum (addBacker l hid a) = backersSum l + a := by
  induction l with
  | nil => simp [addBacker, backersSum]
  | cons x rest ih =>
      obtain ⟨k, v⟩ := x
      by_cases hx : k = hid
      · simp [addBacker, backersSum, hx]
        ring
      · simp only [addBacker, hx, if_false, backersSum, List.map_cons,
          List.sum_cons]
        show v + backersSum (addBacker rest hid a) = v + backersSum rest + a
        rw [ih]
        ring

theorem addBacker_nonneg {l : List (ℕ × ℚ)} {hid : ℕ} {a : ℚ}
    (hl : ∀ b ∈ l, 0 ≤ b.2) (ha : 0 ≤ a) :
    ∀ b ∈ addBacker l hid a, 0 ≤ b.2 := by
  induction l with
  | nil =>
      intro b hb
      simp only [addBacker, List.mem_singleton] at hb
      simpa [hb] using ha
  | cons x rest ih =>
      obtain ⟨k, v⟩ := x
      intro b hb
      by_cases hx : k = hid
      · simp only [addBacker, hx, if_true] at hb
        rcases List.mem_cons.mp hb with h | h
        · have hv : 0 ≤ v := hl (k, v) (List.mem_cons_self _ _)
          subst h
          exact add_nonneg hv ha
        · exact hl b (List.mem_cons_of_mem _ h)
      · simp only [addBacker, hx, if_false] at hb
        rcases List.mem_cons.mp hb with h | h
        · subst h
          exact hl (k, v) (List.mem_cons_self _ _)
        · exact ih (fun b hb => hl b (List.mem_cons_of_mem _ hb)) b h

theorem receiveCredits_creditsReceived (p : Proposal) (hid : ℕ) (a : ℚ)
    (n : ℕ) :
    (p.receiveCredits hid a n).creditsReceived = p.creditsReceived + a := by
  unfold Proposal.receiveCredits
  dsimp only
  split <;> rfl

theorem receiveCredits_backers (p : Proposal) (hid : ℕ) (a : ℚ) (n : ℕ) :
    (p.receiveCredits hid a n).backers = addBacker p.backers hid a := by
  unfold Proposal.receiveCredits
  dsimp only
  split <;> rfl

theorem receiveCredits_uniqueId (p : Proposal) (hid : ℕ) (a : ℚ) (n : ℕ) :
    (p.receiveCredits hid a n).uniqueId = p.uniqueId := by
  unfold Proposal.receiveCredits
  dsimp only
  split <;> rfl

theorem receiveCredits_stepResolved (p : Proposal) (hid : ℕ) (a : ℚ) (n : ℕ) :
    (p.receiveCredits hid a n).stepResolved = p.stepResolved := by
  unfold Proposal.receiveCredits
  dsimp only
  split <;> rfl

theorem receiveCredits_fundingTarget (p : Proposal) (hid : ℕ) (a : ℚ) (n : ℕ) :
    (p.receiveCredits hid a n).fundingTarget = p.fundingTarget := by
  unfold Proposal.receiveCredits
  dsimp only
  split <;> rfl

theorem receiveCredits_status_spec (p : Proposal) (hid : ℕ) (a : ℚ) (n : ℕ) :
    ((p.receiveCredits hid a n).status = p.status ∧
     (p.receiveCredits hid a n).stepFunded = p.stepFunded) ∨
    (p.status = .opened ∧ p.fundingTarget ≤ p.creditsReceived + a ∧
     (p.receiveCredits hid a n).status = .funded ∧
     (p.receiveCredits hid a n).stepFunded = some n) := by
  unfold Proposal.receiveCredits
  dsimp only
  split
  · rename_i hc
    right
    exact ⟨hc.2, hc.1, rfl, rfl⟩
  · left
    exact ⟨rfl, rfl⟩

theorem resolve_fields (p : Proposal) (b : Bool) (n : ℕ) :
    (p.resolve b n).uniqueId = p.uniqueId ∧
    (p.resolve b n).creditsReceived = p.creditsReceived ∧
    (p.resolve b n).backers = p.backers ∧
    (p.resolve b n).stepFunded = p.stepFunded ∧
    (p.resolve b n).fundingTarget = p.fundingTarget ∧
    (p.resolve b n).stepResolved = some n ∧
    (p.resolve b n).status = (if b then .completed else .failed) :=
  ⟨rfl, rfl, rfl, rfl, rfl, rfl, rfl⟩

theorem propEvolve_receive (p : Proposal) (hid : ℕ) (a : ℚ) (n : ℕ)
    (ha : 0 ≤ a) (hC6 : C6St p) : PropEvolve p (p.receiveCredits hid a n) := by
  refine ⟨(receiveCredits_uniqueId p hid a n).symm, ?_, ?_, ?_⟩
  · rcases receiveCredits_status_spec p hid a n with ⟨hs, _⟩ | ⟨hop, _, hs, _⟩
    · rw [hs]; exact statusStepOk_refl _
    · rw [hop, hs]; rfl
  · rw [receiveCredits_creditsReceived]
    linarith
  · intro f hf
    rcases receiveCredits_status_spec p hid a n with ⟨_, hsf⟩ | ⟨hop, _, _, _⟩
    · rw [hsf]; exact hf
    · rw [hC6.1 hop] at hf
      exact absurd hf (by simp)

theorem propEvolve_resolve (p : Proposal) (b : Bool) (n : ℕ)
    (hp : p.status = .funded) : PropEvolve p (p.resolve b n) := by
  refine ⟨rfl, ?_, le_refl _, fun f hf => hf⟩
  rw [hp]
  show statusStepOk .funded (if b then .completed else .failed) = true
  cases b <;> rfl

theorem c6St_receive (p : Proposal) (hid : ℕ) (a : ℚ) (n : ℕ)
    (hC6 : C6St p) (ha : 0 ≤ a) : C6St (p.receiveCredits hid a n) := by
  constructor
  · intro hop
    rcases receiveCredits_status_spec p hid a n with ⟨hs, hsf⟩ | ⟨_, _, hs, _⟩
    · rw [hsf]; exact hC6.1 (hs ▸ hop)
    · rw [hs] at hop; exact absurd hop (by simp)
  · intro hne
    rw [receiveCredits_fundingTarget, receiveCredits_creditsReceived]
    rcases receiveCredits_status_spec p hid a n with ⟨hs, _⟩ | ⟨_, hle, _, _⟩
    · have : p.status ≠ .opened := hs ▸ hne
      have := hC6.2 this
      linarith
    · exact hle

theorem c6St_resolve (p : Proposal) (b : Bool) (n : ℕ)
    (hp : p.status = .funded) (hC6 : C6St p) : C6St (p.resolve b n) := by
  constructor
  · intro hop
    exfalso
    revert hop
    show (if b then PStatus.completed else .failed) = .opened → False
    cases b <;> simp
  · intro _
    show p.fundingTarget ≤ p.creditsReceived
    exact hC6.2 (by rw [hp]; simp)

theorem propSumOk_receive (p : Proposal) (hid : ℕ) (a : ℚ) (n : ℕ)
    (h : PropSumOk p) : PropSumOk (p.receiveCredits hid a n) := by
  unfold PropSumOk
  rw [receiveCredits_backers, receiveCredits_creditsReceived,
    backersSum_addBacker, h]

theorem propOk_receive (p : Proposal) (hid : ℕ) (a : ℚ) (n : ℕ)
    (h : PropOk p) (ha : 0 ≤ a) : PropOk (p.receiveCredits hid a n) := by
  unfold PropOk
  rw [receiveCredits_backers]
  exact addBacker_nonneg h ha

theorem deployCredits_proposal_spec (cfg : Config) (n : ℕ) (h : Holder)
    (p : Proposal) (a0 : ℚ) :
    (deployCredits cfg n h p a0).2.1 = p ∨
    ∃ b, 0 < b ∧
      (deployCredits cfg n h p a0).2.1 = p.receiveCredits h.uniqueId b n := by
  unfold deployCredits
  dsimp only
  split <;> split
  · left; rfl
  · rename_i hpos
    right
    exact ⟨_, lt_of_not_le hpos, rfl⟩
  · left; rfl
  · rename_i hpos
    right
    exact ⟨_, lt_of_not_le hpos, rfl⟩

/-! ### The selected proposal is one of the open proposals -/

theorem mem_insertDesc {x y : ℚ × ℕ} {l : List (ℚ × ℕ)}
    (h : y ∈ insertDesc x l) : y = x ∨ y ∈ l := by
  induction l with
  | nil => simpa [insertDesc] using h
  | cons z rest ih =>
      unfold insertDesc at h
      split at h
      · rcases List.mem_cons.mp h with h1 | h1
        · exact Or.inl h1
        · exact Or.inr h1
      · rcases List.mem_cons.mp h with h1 | h1
        · exact Or.inr (h1 ▸ List.mem_cons_self _ _)
        · rcases ih h1 with h2 | h2
          · exact Or.inl h2
          · exact Or.inr (List.mem_cons_of_mem _ h2)

theorem mem_sortDescByScore {y : ℚ × ℕ} {l : List (ℚ × ℕ)}
    (h : y ∈ sortDescByScore l) : y ∈ l := by
  induction l with
  | nil => simpa [sortDescByScore] using h
  | cons x rest ih =>
      unfold sortDescByScore at h
      rcases mem_insertDesc h with h1 | h1
      · exact h1 ▸ List.mem_cons_self _ _
      · exact List.mem_cons_of_mem _ (ih h1)

theorem mem_scoreProposals {cfg : Config} {ma : ℚ}
    {l : List (ℕ × Proposal)} {c : RC} {x : ℚ × ℕ}
    (h : x ∈ (scoreProposals cfg ma l c).1) : ∃ p, (x.2, p) ∈ l := by
  induction l generalizing c with
  | nil => simpa [scoreProposals] using h
  | cons ip rest ih =>
      obtain ⟨i, p⟩ := ip
      unfold scoreProposals at h
      dsimp only at h
      rcases List.mem_cons.mp h with h1 | h1
      · exact ⟨p, by simp [h1]⟩
      · obtain ⟨q, hq⟩ := ih h1
        exact ⟨q, List.mem_cons_of_mem _ hq⟩

theorem selectProposal_mem {cfg : Config} {h : Holder}
    {l : List (ℕ × Proposal)} {c : RC} {j : ℕ}
    (hsel : (selectProposal cfg h l c).1 = some j) : ∃ p, (j, p) ∈ l := by
  match l with
  | [] => simp [selectProposal] at hsel
  | ip :: rest =>
      unfold selectProposal at hsel
      dsimp only at hsel
      split at hsel
      · match hh : (sortDescByScore
            (scoreProposals cfg h.missionAlignment (ip :: rest) c).1).head? with
        | none => rw [hh] at hsel; simp at hsel
        | some y =>
            rw [hh] at hsel
            simp only [Option.map_some] at hsel
            have hy := mem_sortDescByScore (List.mem_of_mem_head? hh)
            obtain ⟨p, hp⟩ := mem_scoreProposals hy
            have hyj : y.2 = j := by simpa using hsel
            exact ⟨p, hyj ▸ hp⟩
      · match hg : (ip :: rest).get? (cfg.choiceD (ip :: rest).length c).1 with
        | none => rw [hg] at hsel; simp at hsel
        | some x =>
            rw [hg] at hsel
            simp only [Option.map_some] at hsel
            have hx : x ∈ ip :: rest := List.get?_mem hg
            obtain ⟨i, p⟩ := x
            have hij : i = j := by simpa using hsel
            exact ⟨p, hij ▸ hx⟩

/-- The proposal index chosen inside `phaseDeploy` points at an open
proposal of the live proposal list. -/
theorem selectProposal_open {cfg : Config} {s : ModelState} {h : Holder}
    {c : RC} {j : ℕ}
    (hsel : (selectProposal cfg h
      (s.proposals.enum.filter (fun x => x.2.status = .opened)) c).1 = some j) :
    ∃ p, s.proposals.get? j = some p ∧ p.status = .opened := by
  obtain ⟨p, hp⟩ := selectProposal_mem hsel
  have hmem := List.mem_of_mem_filter hp
  have hpred := List.of_mem_filter hp
  refine ⟨p, ?_, by simpa using hpred⟩
  exact List.mk_mem_enum_iff_get?.mp hmem

/-- Effect of `phaseDeploy` on the proposal collection: unchanged, or one
open proposal receives a positive amount of credits from the acting
holder. -/
theorem phaseDeploy_proposals_spec (cfg : Config) (s : ModelState)
    (idx : ℕ) :
    (phaseDeploy cfg s idx).proposals = s.proposals ∨
    ∃ pIdx p hid b, s.proposals.get? pIdx = some p ∧ p.status = .opened ∧
      0 < b ∧ (phaseDeploy cfg s idx).proposals =
        s.proposals.set pIdx (p.receiveCredits hid b s.stepCount) := by
  unfold phaseDeploy
  match hget : s.holders.get? idx with
  | none => left; rfl
  | some h =>
      dsimp only
      split
      · split
        · rename_i pIdx hchoice
          split
          · rename_i p hp
            obtain ⟨q, hq, hopen⟩ := selectProposal_open hchoice
            rw [hp] at hq
            have hqp : q = p := Option.some_injective _ hq.symm
            subst hqp
            rcases deployCredits_proposal_spec cfg s.stepCount h q
              (deployAmount cfg h (selectProposal cfg h
                (s.proposals.enum.filter (fun x => x.2.status = .opened))
                (shouldDeploy cfg s h s.rc).2).2).1
              with hcase | ⟨b, hb, hcase⟩
            · left
              show (s.withHolder idx _).proposals.set pIdx _ = _
              rw [withHolder_proposals, hcase]
              exact list_set_self _ _ _ hp
            · right
              refine ⟨pIdx, q, h.uniqueId, b, hp, hopen, hb, ?_⟩
              show (s.withHolder idx _).proposals.set pIdx _ = _
              rw [withHolder_proposals, hcase]
          · left; rfl
        · left; rfl
      · left; rfl

/-- Effect of one holder's whole step on the proposal collection: same
shape as `phaseDeploy_proposals_spec`. -/
theorem holderStepAt_proposals_spec (cfg : Config) (s : ModelState)
    (idx : ℕ) :
    (holderStepAt cfg s idx).1.proposals = s.proposals ∨
    ∃ pIdx p hid b, s.proposals.get? pIdx = some p ∧ p.status = .opened ∧
      0 < b ∧ (holderStepAt cfg s idx).1.proposals =
        s.proposals.set pIdx (p.receiveCredits hid b s.stepCount) := by
  unfold holderStepAt
  match hget : s.holders.get? idx with
  | none => left; rfl
  | some h =>
      dsimp only
      split
      · have hframe2 : (phaseEarn cfg (phaseAdvance s idx) idx).1.proposals =
            s.proposals := by
          rw [phaseEarn_proposals, phaseAdvance_proposals]
        have hsc2 : (phaseEarn cfg (phaseAdvance s idx) idx).1.stepCount =
            s.stepCount := by
          rw [phaseEarn_stepCount, phaseAdvance_stepCount]
        rcases phaseDeploy_proposals_spec cfg
            (phaseEarn cfg (phaseAdvance s idx) idx).1 idx with hcase |
            ⟨pIdx, p, hid, b, hp, hopen, hb, hcase⟩
        · left
          rw [phaseExit_proposals, hcase, hframe2]
        · right
          refine ⟨pIdx, p, hid, b, ?_, hopen, hb, ?_⟩
          · rw [← hframe2]; exact hp
          · rw [phaseExit_proposals, hcase, hframe2, hsc2]
      · left; rfl

/-- Pointwise effect of the resolution loop body on the proposal list. -/
theorem resolveAt_spec (cfg : Config) (s : ModelState) (idx : ℕ) :
    (resolveAt cfg s idx).proposals = s.proposals ∨
    ∃ p f b, s.proposals.get? idx = some p ∧ p.stepFunded = some f ∧
      f < s.stepCount ∧
      (resolveAt cfg s idx).proposals = s.proposals.set idx
        (p.resolve b s.stepCount) := by
  unfold resolveAt
  match hget : s.proposals.get? idx with
  | none => left; rfl
  | some p =>
      dsimp only
      match hsf : p.stepFunded with
      | none => left; rfl
      | some f =>
          dsimp only
          split
          · rename_i hlt
            split
            · right
              exact ⟨p, f, _, rfl, hsf, hlt, rfl⟩
            · right
              exact ⟨p, f, _, rfl, hsf, hlt, rfl⟩
          · left; rfl

theorem resolveAt_get?_ne (cfg : Config) (s : ModelState) (i j : ℕ)
    (hne : i ≠ j) :
    (resolveAt cfg s i).proposals.get? j = s.proposals.get? j := by
  rcases resolveAt_spec cfg s i with hcase | ⟨p, f, b, _, _, _, hcase⟩
  · rw [hcase]
  · rw [hcase]
    exact List.get?_set_ne _ _ hne

theorem resolveAt_length (cfg : Config) (s : ModelState) (i : ℕ) :
    (resolveAt cfg s i).proposals.length = s.proposals.length := by
  rcases resolveAt_spec cfg s i with hcase | ⟨p, f, b, _, _, _, hcase⟩
  · rw [hcase]
  · rw [hcase, List.length_set]

/-- Pointwise characterization of the resolution fold: with pairwise
distinct positions, every proposal position is either untouched or
resolved exactly once from its original value, and only at a position
whose proposal had been funded in an earlier step. -/
theorem resolveFold_get? (cfg : Config) (idxs : List ℕ) (s : ModelState)
    (hnd : idxs.Pairwise (· ≠ ·)) (j : ℕ) :
    (idxs.foldl (resolveAt cfg) s).proposals.get? j = s.proposals.get? j ∨
    (j ∈ idxs ∧ ∃ p f b, s.proposals.get? j = some p ∧
      p.stepFunded = some f ∧ f < s.stepCount ∧
      (idxs.foldl (resolveAt cfg) s).proposals.get? j =
        some (p.resolve b s.stepCount)) := by
  induction idxs generalizing s with
  | nil => left; rfl
  | cons i rest ih =>
      have hnd' : rest.Pairwise (· ≠ ·) := hnd.of_cons
      have hine : ∀ k ∈ rest, i ≠ k := fun k hk =>
        List.rel_of_pairwise_cons hnd hk
      rw [List.foldl_cons]
      have hsc : (resolveAt cfg s i).stepCount = s.stepCount :=
        resolveAt_stepCount cfg s i
      by_cases hij : i = j
      · subst hij
        have hrest : i ∉ rest := fun hmem => (hine i hmem) rfl
        rcases ih (resolveAt cfg s i) hnd' with hcase | ⟨hmem, _⟩
        · rw [hcase]
          rcases resolveAt_spec cfg s i with hcase2 | ⟨p, f, b, hp, hf, hlt, hcase2⟩
          · left; rw [hcase2]
          · right
            refine ⟨List.mem_cons_self _ _, p, f, b, hp, hf, hlt, ?_⟩
            rw [hcase2]
            have hlen : i < s.proposals.length :=
              (List.get?_eq_some.mp hp).1
            rw [List.get?_set_eq_of_lt _ hlen]
        · exact absurd hmem hrest
      · rcases ih (resolveAt cfg s i) hnd' with hcase | ⟨hmem, p, f, b, hp, hf, hlt, hcase⟩
        · left
          rw [hcase]
          exact resolveAt_get?_ne cfg s i j hij
        · right
          rw [resolveAt_get?_ne cfg s i j hij] at hp
          rw [hsc] at hlt hcase
          exact ⟨List.mem_cons_of_mem _ hmem, p, f, b, hp, hf, hlt, hcase⟩

theorem resolveFold_length (cfg : Config) (idxs : List ℕ) (s : ModelState) :
    (idxs.foldl (resolveAt cfg) s).proposals.length = s.proposals.length := by
  induction idxs generalizing s with
  | nil => rfl
  | cons i rest ih => rw [List.foldl_cons, ih, resolveAt_length]

theorem resolveFundedProposals_eq_fold (cfg : Config) (s : ModelState) :
    resolveFundedProposals cfg s = (fundedIdxs s).foldl (resolveAt cfg) s := rfl

theorem fundedIdxs_pairwise (s : ModelState) :
    (fundedIdxs s).Pairwise (· ≠ ·) := by
  have h1 : List.Sublist (fundedIdxs s) (s.proposals.enum.map Prod.fst) :=
    (List.filter_sublist _).map _
  rw [List.enum_map_fst] at h1
  have h2 : (List.range s.proposals.length).Pairwise (· < ·) :=
    List.pairwise_lt_range _
  exact (h2.sublist h1).imp ne_of_lt

theorem fundedIdxs_funded (s : ModelState) (i : ℕ) (hi : i ∈ fundedIdxs s)
    (p : Proposal) (hp : s.proposals.get? i = some p) :
    p.status = .funded := by
  unfold fundedIdxs at hi
  obtain ⟨⟨i', q⟩, hqmem, hq⟩ := List.mem_map.mp hi
  obtain hpred := List.of_mem_filter hqmem
  obtain hqen := List.mem_of_mem_filter hqmem
  have hq' : s.proposals.get? i' = some q := List.mk_mem_enum_iff_get?.mp hqen
  cases hq
  rw [hp] at hq'
  have : p = q := Option.some_injective _ hq'
  subst this
  simpa using hpred

/-! ### Proposal invariants through one model step -/

theorem spawnSeekers_proposals (cfg : Config) (n : ℕ) (s : ModelState) :
    (spawnSeekers cfg n s).proposals = s.proposals := by
  induction n generalizing s with
  | zero => rfl
  | succ m ih => simpa [spawnSeekers] using ih _

theorem maybeSpawnEntrants_proposals (cfg : Config) (s : ModelState) :
    (maybeSpawnEntrants cfg s).proposals = s.proposals := by
  unfold maybeSpawnEntrants
  dsimp only
  repeat' split
  all_goals simp [spawnSeekers_proposals]

theorem updateTotals_proposals (cfg : Config) (s : ModelState) :
    (updateTotals cfg s).proposals = s.proposals := rfl

theorem updateTotals_stepCount (cfg : Config) (s : ModelState) :
    (updateTotals cfg s).stepCount = s.stepCount := rfl

theorem addProposal_proposals (cfg : Config) (s : ModelState) :
    (addProposal cfg s).proposals = s.proposals ++
      [⟨s.proposalCounter + 1,
        ((cfg.randintD cfg.fundingTargetMin cfg.fundingTargetMax s.rc).1 : ℚ),
        0, [], .opened, s.stepCount, none, none⟩] := rfl

theorem maybeSpawnProposal_proposals_spec (cfg : Config) (s : ModelState) :
    (maybeSpawnProposal cfg s).proposals = s.proposals ∨
    ∃ q : Proposal, q.status = .opened ∧ q.backers = [] ∧
      q.creditsReceived = 0 ∧ q.stepFunded = none ∧ q.stepResolved = none ∧
      (maybeSpawnProposal cfg s).proposals = s.proposals ++ [q] := by
  unfold maybeSpawnProposal
  dsimp only
  split
  · split
    · right
      exact ⟨_, rfl, rfl, rfl, rfl, rfl, rfl⟩
    · left; rfl
  · left; rfl

/-- Bundle for the open-proposal state machine: the statewise invariant
is preserved and the collection evolves along permitted transitions. -/
theorem c6_holderStepAt (cfg : Config) (s : ModelState) (idx : ℕ)
    (hC6 : ∀ p ∈ s.proposals, C6St p) :
    (∀ p ∈ (holderStepAt cfg s idx).1.proposals, C6St p) ∧
    ProposalsEvolve s.proposals (holderStepAt cfg s idx).1.proposals := by
  rcases holderStepAt_proposals_spec cfg s idx with hcase |
    ⟨pIdx, p, hid, b, hp, hopen, hb, hcase⟩
  · rw [hcase]; exact ⟨hC6, proposalsEvolve_refl _⟩
  · rw [hcase]
    have hC6p := hC6 p (List.get?_mem hp)
    constructor
    · intro q hq
      rcases List.mem_or_eq_of_mem_set hq with h | h
      · exact hC6 q h
      · subst h; exact c6St_receive _ _ _ _ hC6p (le_of_lt hb)
    · exact proposalsEvolve_set hp
        (propEvolve_receive _ _ _ _ (le_of_lt hb) hC6p)

theorem c6_holderPass (cfg : Config) (order : List ℕ) (s : ModelState)
    (hC6 : ∀ p ∈ s.proposals, C6St p) :
    (∀ p ∈ (holderPass cfg order s).1.proposals, C6St p) ∧
    ProposalsEvolve s.proposals (holderPass cfg order s).1.proposals := by
  induction order generalizing s with
  | nil => exact ⟨hC6, proposalsEvolve_refl _⟩
  | cons i rest ih =>
      obtain ⟨h1, h2⟩ := c6_holderStepAt cfg s i hC6
      obtain ⟨h3, h4⟩ := ih (holderStepAt cfg s i).1 h1
      exact ⟨h3, proposalsEvolve_trans h2 h4⟩

theorem c6_resolveFunded (cfg : Config) (s : ModelState)
    (hC6 : ∀ p ∈ s.proposals, C6St p) :
    (∀ p ∈ (resolveFundedProposals cfg s).proposals, C6St p) ∧
    ProposalsEvolve s.proposals (resolveFundedProposals cfg s).proposals := by
  rw [resolveFundedProposals_eq_fold]
  have hnd := fundedIdxs_pairwise s
  constructor
  · intro q hq
    obtain ⟨j, hj⟩ := List.mem_iff_get?.mp hq
    rcases resolveFold_get? cfg (fundedIdxs s) s hnd j with hcase |
      ⟨hmem, p, f, b, hp, hf, hlt, hcase⟩
    · rw [hcase] at hj
      exact hC6 q (List.get?_mem hj)
    · rw [hcase] at hj
      have hq' : p.resolve b s.stepCount = q := Option.some_injective _ hj
      have hfunded := fundedIdxs_funded s j hmem p hp
      rw [← hq']
      exact c6St_resolve p b _ hfunded (hC6 p (List.get?_mem hp))
  · refine ⟨le_of_eq (resolveFold_length cfg _ s).symm, fun i hpi hqi => ?_⟩
    have hpg : s.proposals.get? i = some (s.proposals.get ⟨i, hpi⟩) :=
      List.get?_eq_get hpi
    rcases resolveFold_get? cfg (fundedIdxs s) s hnd i with hcase |
      ⟨hmem, p, f, b, hp, hf, hlt, hcase⟩
    · rw [List.get?_eq_get hqi, hpg] at hcase
      rw [Option.some_injective _ hcase]
      exact propEvolve_refl _
    · have hpe : p = s.proposals.get ⟨i, hpi⟩ := by
        rw [hpg] at hp
        exact Option.some_injective _ hp.symm
      have hge : ((fundedIdxs s).foldl (resolveAt cfg) s).proposals.get
          ⟨i, hqi⟩ = p.resolve b s.stepCount := by
        rw [List.get?_eq_get hqi] at hcase
        exact Option.some_injective _ hcase
      rw [hge, ← hpe]
      exact propEvolve_resolve p b _ (fundedIdxs_funded s i hmem p hp)

theorem c6_step (cfg : Config) (order : List ℕ) (s : ModelState)
    (hC6 : ∀ p ∈ s.proposals, C6St p) :
    (∀ p ∈ (s.step cfg order).proposals, C6St p) ∧
    ProposalsEvolve s.proposals (s.step cfg order).proposals := by
  unfold ModelState.step
  have h0 : (stepPre s).proposals = s.proposals := rfl
  obtain ⟨h1, h2⟩ := c6_holderPass cfg order (stepPre s) (h0 ▸ hC6)
  rw [h0] at h2
  set s2 := (holderPass cfg order (stepPre s)).1 with hs2
  have h3 : (updateTotals cfg s2).proposals = s2.proposals := rfl
  obtain ⟨h4, h5⟩ := c6_resolveFunded cfg (updateTotals cfg s2) (h3 ▸ h1)
  rw [h3] at h5
  set s4 := resolveFundedProposals cfg (updateTotals cfg s2) with hs4
  have h6 : (maybeSpawnEntrants cfg s4).proposals = s4.proposals :=
    maybeSpawnEntrants_proposals cfg s4
  have h7 : ∀ p ∈ (maybeSpawnEntrants cfg s4).proposals, C6St p := h6 ▸ h4
  rcases maybeSpawnProposal_proposals_spec cfg (maybeSpawnEntrants cfg s4)
    with hcase | ⟨q, hq1, _, hq3, hq4, _, hcase⟩
  · rw [hcase, h6]
    exact ⟨h4, proposalsEvolve_trans h2 h5⟩
  · rw [hcase, h6]
    constructor
    · intro p hp
      rcases List.mem_append.mp hp with h | h
      · exact h4 p h
      · rw [List.mem_singleton] at h
        subst h
        exact ⟨fun _ => hq4, fun hne => absurd hq1 hne⟩
    · exact proposalsEvolve_trans h2
        (proposalsEvolve_trans h5 (proposalsEvolve_append _ _))

theorem spawnArchHolders_proposals (cfg : Config) (aid : String) (n : ℕ)
    (s : ModelState) : (spawnArchHolders cfg aid n s).proposals = s.proposals := by
  induction n generalizing s with
  | zero => rfl
  | succ m ih => simpa [spawnArchHolders] using ih _

theorem spawnHolders_proposals (cfg : Config) (count : ℕ) (s : ModelState) :
    (spawnHolders cfg count s).proposals = s.proposals := by
  unfold spawnHolders
  generalize archetypeCounts cfg.archetypeMix count = cnts
  induction cnts generalizing s with
  | nil => rfl
  | cons x rest ih => rw [List.foldl_cons, ih, spawnArchHolders_proposals]

/-- Every proposal of a freshly constructed model is a fresh open
proposal: no credits, no backers, no timestamps. -/
theorem init_proposals_inv (cfg : Config) (c0 : RC)
    {motive : Proposal → Prop}
    (hnew : ∀ uid : ℕ, ∀ ft : ℚ, ∀ n : ℕ,
      motive ⟨uid, ft, 0, [], .opened, n, none, none⟩) :
    ∀ p ∈ (EndowmentModel.init cfg c0).proposals, motive p := by
  have hsp : ∀ m (s : ModelState), (∀ p ∈ s.proposals, motive p) →
      ∀ p ∈ (spawnProposals cfg m s).proposals, motive p := by
    intro m
    induction m with
    | zero => intro s h; exact h
    | succ k ih =>
        intro s h
        apply ih
        intro p hp
        rw [addProposal_proposals] at hp
        rcases List.mem_append.mp hp with h1 | h1
        · exact h p h1
        · rw [List.mem_singleton] at h1
          subst h1
          exact hnew _ _ _
  unfold EndowmentModel.init
  apply hsp
  intro p hp
  rw [spawnHolders_proposals] at hp
  simp at hp

theorem c6St_runSteps (cfg : Config) (c0 : RC) (sh : ℕ → List ℕ) (n : ℕ) :
    ∀ p ∈ (runSteps cfg c0 sh n).proposals, C6St p := by
  induction n with
  | zero =>
      apply init_proposals_inv
      intro uid ft m
      exact ⟨fun _ => rfl, fun hne => absurd rfl hne⟩
  | succ m ih => exact (c6_step cfg (sh m) (runSteps cfg c0 sh m) ih).1

/-! ### Backer-ledger total = credits received (through one step) -/

theorem propSumOk_resolve (p : Proposal) (b : Bool) (n : ℕ)
    (h : PropSumOk p) : PropSumOk (p.resolve b n) := h

theorem propOk_resolve (p : Proposal) (b : Bool) (n : ℕ)
    (h : PropOk p) : PropOk (p.resolve b n) := h

theorem sumOk_holderPass (cfg : Config) (order : List ℕ) (s : ModelState)
    (hs : ∀ p ∈ s.proposals, PropSumOk p) :
    ∀ p ∈ (holderPass cfg order s).1.proposals, PropSumOk p := by
  induction order generalizing s with
  | nil => exact hs
  | cons i rest ih =>
      have hstep : ∀ p ∈ (holderStepAt cfg s i).1.proposals, PropSumOk p := by
        rcases holderStepAt_proposals_spec cfg s i with hcase |
          ⟨pIdx, p, hid, b, hp, _, _, hcase⟩
        · rw [hcase]; exact hs
        · rw [hcase]
          intro q hq
          rcases List.mem_or_eq_of_mem_set hq with h | h
          · exact hs q h
          · subst h
            exact propSumOk_receive _ _ _ _ (hs p (List.get?_mem hp))
      show ∀ p ∈ (holderPass cfg rest (holderStepAt cfg s i).1).1.proposals,
        PropSumOk p
      exact ih _ hstep

theorem sumOk_resolveFunded (cfg : Config) (s : ModelState)
    (hs : ∀ p ∈ s.proposals, PropSumOk p) :
    ∀ p ∈ (resolveFundedProposals cfg s).proposals, PropSumOk p := by
  rw [resolveFundedProposals_eq_fold]
  intro q hq
  obtain ⟨j, hj⟩ := List.mem_iff_get?.mp hq
  rcases resolveFold_get? cfg (fundedIdxs s) s (fundedIdxs_pairwise s) j
    with hcase | ⟨_, p, f, b, hp, _, _, hcase⟩
  · rw [hcase] at hj
    exact hs q (List.get?_mem hj)
  · rw [hcase] at hj
    rw [← Option.some_injective _ hj]
    exact propSumOk_resolve p b _ (hs p (List.get?_mem hp))

theorem sumOk_step (cfg : Config) (order : List ℕ) (s : ModelState)
    (hs : ∀ p ∈ s.proposals, PropSumOk p) :
    ∀ p ∈ (s.step cfg order).proposals, PropSumOk p := by
  unfold ModelState.step
  have h1 := sumOk_holderPass cfg order (stepPre s) hs
  have h2 := sumOk_resolveFunded cfg
    (updateTotals cfg (holderPass cfg order (stepPre s)).1) h1
  set s4 := resolveFundedProposals cfg
    (updateTotals cfg (holderPass cfg order (stepPre s)).1) with hs4
  rcases maybeSpawnProposal_proposals_spec cfg (maybeSpawnEntrants cfg s4)
    with hcase | ⟨q, _, hqb, hqc, _, _, hcase⟩
  · rw [hcase, maybeSpawnEntrants_proposals]
    exact h2
  · rw [hcase, maybeSpawnEntrants_proposals]
    intro p hp
    rcases List.mem_append.mp hp with h | h
    · exact h2 p h
    · rw [List.mem_singleton] at h
      subst h
      unfold PropSumOk
      rw [hqb, hqc]
      rfl

theorem sumOk_runSteps (cfg : Config) (c0 : RC) (sh : ℕ → List ℕ) (n : ℕ) :
    ∀ p ∈ (runSteps cfg c0 sh n).proposals, PropSumOk p := by
  induction n with
  | zero =>
      apply init_proposals_inv
      intro uid ft m
      show backersSum [] = 0
      rfl
  | succ m ih => exact sumOk_step cfg (sh m) (runSteps cfg c0 sh m) ih

/-! ### Numeric leaf lemmas for the holder invariant -/

theorem one_le_multiplier (w : ℕ) :
    1 ≤ (get_time_weight_multiplier w).multiplier := by
  unfold get_time_weight_multiplier
  split
  · exact le_refl 1
  · split
    · norm_num
    · norm_num

theorem multiplier_nonneg (w : ℕ) :
    0 ≤ (get_time_weight_multiplier w).multiplier :=
  le_trans zero_le_one (one_le_multiplier w)

theorem batchSum_nil : batchSum [] = 0 := rfl

theorem batchSum_cons (x : ℕ × ℚ) (l : List (ℕ × ℚ)) :
    batchSum (x :: l) = x.2 + batchSum l := by
  simp [batchSum]

theorem batchSum_append (l1 l2 : List (ℕ × ℚ)) :
    batchSum (l1 ++ l2) = batchSum l1 + batchSum l2 := by
  simp [batchSum]

theorem expireLoop_spec (cs ew : ℤ) (l : List (ℕ × ℚ)) (credits te : ℚ)
    (hl : ∀ b ∈ l, 0 ≤ b.2) (hsum : batchSum l ≤ credits)
    (hc : 0 ≤ credits) :
    (∀ b ∈ (expireLoop cs ew l credits te).1, 0 ≤ b.2) ∧
    batchSum (expireLoop cs ew l credits te).1 ≤
      (expireLoop cs ew l credits te).2.1 ∧
    0 ≤ (expireLoop cs ew l credits te).2.1 := by
  induction l generalizing credits te with
  | nil => exact ⟨hl, by simpa [expireLoop] using hc, hc⟩
  | cons x rest ih =>
      obtain ⟨sc, amount⟩ := x
      rw [batchSum_cons] at hsum
      unfold expireLoop
      split
      · apply ih
        · exact fun b hb => hl b (List.mem_cons_of_mem _ hb)
        · have : batchSum rest ≤ credits - amount := by linarith
          exact le_max_of_le_right this
        · exact le_max_left 0 _
      · refine ⟨hl, ?_, hc⟩
        rw [batchSum_cons]
        exact hsum

theorem consumeBatches_spec (rem : ℚ) (l : List (ℕ × ℚ))
    (hl : ∀ b ∈ l, 0 ≤ b.2) :
    (∀ b ∈ consumeBatches rem l, 0 ≤ b.2) ∧
    batchSum (consumeBatches rem l) ≤ max (batchSum l - rem) 0 := by
  induction l generalizing rem with
  | nil =>
      refine ⟨by simp [consumeBatches], ?_⟩
      simp [consumeBatches, batchSum_nil]
  | cons x rest ih =>
      obtain ⟨sc, b⟩ := x
      unfold consumeBatches
      split
      · rename_i hrem
        refine ⟨hl, ?_⟩
        apply le_max_of_le_left
        have : (0 : ℚ) ≤ -rem := by linarith
        linarith
      · split
        · rename_i hrem hble
          obtain ⟨ih1, ih2⟩ := ih (rem - b)
            (fun c hc => hl c (List.mem_cons_of_mem _ hc))
          refine ⟨ih1, ?_⟩
          calc batchSum (consumeBatches (rem - b) rest)
              ≤ max (batchSum rest - (rem - b)) 0 := ih2
            _ ≤ max (batchSum ((sc, b) :: rest) - rem) 0 := by
                apply max_le_max _ (le_refl 0)
                rw [batchSum_cons]
                show batchSum rest - (rem - b) ≤ b + batchSum rest - rem
                ring_nf
                exact le_refl _
        · rename_i hrem hbgt
          constructor
          · intro c hc
            rcases List.mem_cons.mp hc with h | h
            · subst h
              show 0 ≤ b - rem
              push_neg at hbgt
              linarith
            · exact hl c (List.mem_cons_of_mem _ h)
          · apply le_max_of_le_left
            rw [batchSum_cons, batchSum_cons]
            show b - rem + batchSum rest ≤ b + batchSum rest - rem
            ring_nf
            exact le_refl _

theorem holderOk_expire (h : Holder) (n : ℕ) (hok : HolderOk h) :
    HolderOk (h.expireOldCredits n) := by
  obtain ⟨h1, h2, h3, h4, h5⟩ := hok
  unfold Holder.expireOldCredits
  split
  · rename_i hen
    obtain ⟨e1, e2, e3⟩ := expireLoop_spec (n : ℤ) (h.creditExpiryWeeks : ℤ)
      h.creditBatches h.credits h.totalExpired h3 h4 h2
    exact ⟨h1, e3, e1, e2, fun hdis => by rw [hen] at hdis; cases hdis⟩
  · exact ⟨h1, h2, h3, h4, h5⟩

theorem holderOk_advance (h : Holder) (hok : HolderOk h) :
    HolderOk { h with weeksHeld := h.weeksHeld + 1 } := hok

/-- Holder side of `deploy_credits`: the numeric invariant survives any
requested amount. -/
theorem holderOk_deployCredits (cfg : Config) (n : ℕ) (h : Holder)
    (p : Proposal) (a0 : ℚ) (hok : HolderOk h) :
    HolderOk (deployCredits cfg n h p a0).1 := by
  obtain ⟨h1, h2, h3, h4, h5⟩ := hok
  unfold deployCredits
  dsimp only
  split <;> split
  all_goals try exact ⟨h1, h2, h3, h4, h5⟩
  · -- amount = h.credits (a0 > credits), positive branch
    rename_i hgt hpos
    push_neg at hpos
    constructor
    · have hb : min (h.rscHeld * (h.credits / max h.credits 1) * cfg.burnRate)
          (h.rscHeld * (1 / 10)) ≤ h.rscHeld * (1 / 10) := min_le_right _ _
      dsimp only
      nlinarith
    refine ⟨by dsimp only; linarith, ?_, ?_, ?_⟩
    · dsimp only
      split
      · rename_i hen
        exact (consumeBatches_spec h.credits h.creditBatches h3).1
      · exact h3
    · dsimp only
      split
      · rename_i hen
        have := (consumeBatches_spec h.credits h.creditBatches h3).2
        have hmax : max (batchSum h.creditBatches - h.credits) 0 ≤
            h.credits - h.credits := by
          apply max_le _ _
          · linarith
          · linarith
        linarith [this]
      · rename_i hen
        rw [Bool.not_eq_true] at hen
        rw [h5 hen, batchSum_nil]
        linarith
    · intro hdis
      dsimp only
      split
      · rename_i hen
        rw [hdis] at hen
        cases hen
      · exact h5 hdis
  · -- amount = a0 (a0 ≤ credits), positive branch
    rename_i hgt hpos
    push_neg at hgt hpos
    constructor
    · have hb : min (h.rscHeld * (a0 / max h.credits 1) * cfg.burnRate)
          (h.rscHeld * (1 / 10)) ≤ h.rscHeld * (1 / 10) := min_le_right _ _
      dsimp only
      nlinarith
    refine ⟨by dsimp only; linarith, ?_, ?_, ?_⟩
    · dsimp only
      split
      · exact (consumeBatches_spec a0 h.creditBatches h3).1
      · exact h3
    · dsimp only
      split
      · have := (consumeBatches_spec a0 h.creditBatches h3).2
        have hmax : max (batchSum h.creditBatches - a0) 0 ≤ h.credits - a0 := by
          apply max_le _ _
          · linarith
          · linarith
        linarith [this]
      · rename_i hen
        rw [Bool.not_eq_true] at hen
        rw [h5 hen, batchSum_nil]
        linarith
    · intro hdis
      dsimp only
      split
      · rename_i hen
        rw [hdis] at hen
        cases hen
      · exact h5 hdis

theorem randintD_nonneg (cfg : Config) (a b : ℤ) (c : RC)
    (ha : 0 ≤ a) (hb : 0 ≤ b)
    (hu : ∀ i, 0 ≤ cfg.unitStream i ∧ cfg.unitStream i ≤ 1) :
    0 ≤ (cfg.randintD a b c).1 := by
  unfold Config.randintD Config.rand
  dsimp only
  obtain ⟨hu0, hu1⟩ := hu c.u
  by_cases hab : 0 ≤ (b : ℚ) - (a : ℚ) + 1
  · apply le_min _ hb
    have : (0 : ℤ) ≤ ⌊cfg.unitStream c.u * ((b : ℚ) - (a : ℚ) + 1)⌋ := by
      apply Int.le_floor.mpr
      push_cast
      exact mul_nonneg hu0 hab
    omega
  · push_neg at hab
    apply le_min _ hb
    have hle : (b : ℚ) - (a : ℚ) + 1 ≤
        cfg.unitStream c.u * ((b : ℚ) - (a : ℚ) + 1) := by
      nlinarith
    have : (b - a + 1 : ℤ) ≤ ⌊cfg.unitStream c.u * ((b : ℚ) - (a : ℚ) + 1)⌋ := by
      apply Int.le_floor.mpr
      push_cast
      exact hle
    omega

theorem lookupStr_mem {α : Type} {l : List (String × α)} {key : String}
    {v : α} (h : lookupStr l key = some v) : (key, v) ∈ l := by
  induction l with
  | nil => simp [lookupStr] at h
  | cons x rest ih =>
      obtain ⟨k, w⟩ := x
      unfold lookupStr at h
      split at h
      · rename_i hk
        subst hk
        rw [Option.some_injective _ h]
        exact List.mem_cons_self _ _
      · exact List.mem_cons_of_mem _ (ih h)

theorem holderOk_mkCustomHolder (cfg : Config) (uid : ℕ) (label : String)
    (c : RC) (hu : ∀ i, 0 ≤ cfg.unitStream i ∧ cfg.unitStream i ≤ 1) :
    HolderOk (mkCustomHolder cfg uid label c).1 := by
  unfold mkCustomHolder
  dsimp only
  refine ⟨?_, le_refl 0, ?_, ?_, ?_⟩
  · exact Int.cast_nonneg.mpr
      (randintD_nonneg cfg 500 20000 _ (by norm_num) (by norm_num) hu)
  · intro b hb
    simp at hb
  · rw [batchSum_nil]
  · intro _
    rfl

theorem holderOk_mkArchHolder (cfg : Config) (uid : ℕ) (label : String)
    (arch : ArchSpec) (c : RC)
    (hu : ∀ i, 0 ≤ cfg.unitStream i ∧ cfg.unitStream i ≤ 1)
    (hr1 : 0 ≤ arch.rscRange.1) (hr2 : 0 ≤ arch.rscRange.2) :
    HolderOk (mkArchHolder cfg uid label arch c).1 := by
  unfold mkArchHolder
  dsimp only
  refine ⟨?_, le_refl 0, ?_, ?_, ?_⟩
  · exact Int.cast_nonneg.mpr
      (randintD_nonneg cfg arch.rscRange.1 arch.rscRange.2 _ hr1 hr2 hu)
  · intro b hb
    simp at hb
  · rw [batchSum_nil]
  · intro _
    rfl

theorem holderOk_mkHolder (cfg : Config) (uid : ℕ)
    (archetype : Option String) (c : RC) (hcfg : CfgOk cfg) :
    HolderOk (mkHolder cfg uid archetype c).1 := by
  obtain ⟨hu, _, htab⟩ := hcfg
  unfold mkHolder
  match archetype with
  | none => exact holderOk_mkCustomHolder cfg uid "custom" c hu
  | some a =>
      dsimp only
      match hl : lookupStr cfg.archetypes a with
      | some arch =>
          obtain ⟨hr1, hr2⟩ := htab (a, arch) (lookupStr_mem hl)
          exact holderOk_mkArchHolder cfg uid a arch c hu hr1 hr2
      | none => exact holderOk_mkCustomHolder cfg uid a c hu

/-! ### The numeric state invariant through one step -/

theorem stateOk_withHolder {s : ModelState} {idx : ℕ} {h : Holder}
    (hok : StateOk s) (hh : HolderOk h) : StateOk (s.withHolder idx h) := by
  refine ⟨?_, hok.2⟩
  intro h' hh'
  rcases List.mem_or_eq_of_mem_set hh' with hmem | heq
  · exact hok.1 h' hmem
  · subst heq
    exact hh

theorem stateOk_phaseAdvance (s : ModelState) (idx : ℕ)
    (hok : StateOk s) : StateOk (phaseAdvance s idx) := by
  unfold phaseAdvance
  match hget : s.holders.get? idx with
  | none => exact hok
  | some h =>
      exact stateOk_withHolder hok
        (holderOk_expire _ _ (holderOk_advance h (hok.1 h (List.get?_mem hget))))

theorem stateOk_phaseEarn (cfg : Config) (s : ModelState) (idx : ℕ)
    (hE : ∀ t, 0 ≤ cfg.annualEmissionFn t) (hok : StateOk s) :
    StateOk (phaseEarn cfg s idx).1 := by
  unfold phaseEarn
  match hget : s.holders.get? idx with
  | none => exact hok
  | some h =>
      dsimp only
      split
      · exact hok
      · rename_i hpos
        push_neg at hpos
        obtain ⟨h1, h2, h3, h4, h5⟩ := hok.1 h (List.get?_mem hget)
        have hnc : 0 ≤ s.weeklyEmission cfg *
            (h.rscHeld * h.timeWeightMultiplier / s.totalEffectiveRsc) := by
          apply mul_nonneg
          · exact div_nonneg (hE s.stepCount) (by norm_num)
          · apply div_nonneg
            · exact mul_nonneg h1 (multiplier_nonneg _)
            · exact le_of_lt hpos
        apply stateOk_withHolder hok
        refine ⟨h1, by dsimp only; linarith, ?_, ?_, ?_⟩
        · dsimp only
          split
          · intro b hb
            rcases List.mem_append.mp hb with hmem | hmem
            · exact h3 b hmem
            · rw [List.mem_singleton] at hmem
              subst hmem
              exact hnc
          · exact h3
        · dsimp only
          split
          · rw [batchSum_append, batchSum_cons, batchSum_nil]
            linarith
          · linarith
        · intro hdis
          dsimp only at hdis ⊢
          split
          · rename_i hen
            rw [hdis] at hen
            cases hen
          · exact h5 hdis

theorem phaseDeploy_holders_spec (cfg : Config) (s : ModelState) (idx : ℕ) :
    (phaseDeploy cfg s idx).holders = s.holders ∨
    ∃ h h', s.holders.get? idx = some h ∧ (HolderOk h → HolderOk h') ∧
      (phaseDeploy cfg s idx).holders = s.holders.set idx h' := by
  unfold phaseDeploy
  match hget : s.holders.get? idx with
  | none => left; rfl
  | some h =>
      dsimp only
      split
      · split
        · rename_i pIdx hchoice
          split
          · rename_i p hp
            right
            refine ⟨h, _, rfl, ?_, rfl⟩
            intro hok
            exact holderOk_deployCredits cfg s.stepCount h p _ hok
          · left
            rfl
        · right
          exact ⟨h, { h with consecutiveIdleSteps := h.consecutiveIdleSteps + 1 },
            rfl, fun hok => hok, rfl⟩
      · right
        exact ⟨h, { h with consecutiveIdleSteps := h.consecutiveIdleSteps + 1 },
          rfl, fun hok => hok, rfl⟩

theorem stateOk_phaseDeploy (cfg : Config) (s : ModelState) (idx : ℕ)
    (hok : StateOk s) : StateOk (phaseDeploy cfg s idx) := by
  constructor
  · rcases phaseDeploy_holders_spec cfg s idx with hcase |
      ⟨h, h', hget, himp, hcase⟩
    · rw [hcase]; exact hok.1
    · rw [hcase]
      intro q hq
      rcases List.mem_or_eq_of_mem_set hq with hmem | heq
      · exact hok.1 q hmem
      · subst heq
        exact himp (hok.1 h (List.get?_mem hget))
  · rcases phaseDeploy_proposals_spec cfg s idx with hcase |
      ⟨pIdx, p, hid, b, hp, _, hb, hcase⟩
    · rw [hcase]; exact hok.2
    · rw [hcase]
      intro q hq
      rcases List.mem_or_eq_of_mem_set hq with hmem | heq
      · exact hok.2 q hmem
      · subst heq
        exact propOk_receive _ _ _ _ (hok.2 p (List.get?_mem hp)) (le_of_lt hb)

theorem stateOk_phaseExit (cfg : Config) (s : ModelState) (idx : ℕ)
    (hok : StateOk s) : StateOk (phaseExit cfg s idx) := by
  unfold phaseExit
  match hget : s.holders.get? idx with
  | none => exact hok
  | some h =>
      dsimp only
      split
      · exact hok
      · split
        · exact stateOk_withHolder hok (hok.1 h (List.get?_mem hget))
        · exact hok

theorem stateOk_holderStepAt (cfg : Config) (s : ModelState) (idx : ℕ)
    (hE : ∀ t, 0 ≤ cfg.annualEmissionFn t) (hok : StateOk s) :
    StateOk (holderStepAt cfg s idx).1 := by
  unfold holderStepAt
  match hget : s.holders.get? idx with
  | none => exact hok
  | some h =>
      dsimp only
      split
      · exact stateOk_phaseExit cfg _ idx (stateOk_phaseDeploy cfg _ idx
          (stateOk_phaseEarn cfg _ idx hE (stateOk_phaseAdvance s idx hok)))
      · exact hok

theorem stateOk_holderPass (cfg : Config) (order : List ℕ) (s : ModelState)
    (hE : ∀ t, 0 ≤ cfg.annualEmissionFn t) (hok : StateOk s) :
    StateOk (holderPass cfg order s).1 := by
  induction order generalizing s with
  | nil => exact hok
  | cons i rest ih =>
      show StateOk (holderPass cfg rest (holderStepAt cfg s i).1).1
      exact ih _ (stateOk_holderStepAt cfg s i hE hok)

theorem applyRefund_ok {hs : List Holder} {hid : ℕ} {v : ℚ}
    (hok : ∀ h ∈ hs, HolderOk h) (hv : 0 ≤ v) :
    ∀ h ∈ applyRefund hs hid v, HolderOk h := by
  induction hs with
  | nil => simpa [applyRefund] using hok
  | cons x rest ih =>
      intro h hh
      unfold applyRefund at hh
      split at hh
      · split at hh
        · rcases List.mem_cons.mp hh with heq | hmem
          · subst heq
            obtain ⟨h1, h2, h3, h4, h5⟩ := hok x (List.mem_cons_self _ _)
            refine ⟨h1, by dsimp only; linarith, h3, ?_, h5⟩
            dsimp only
            linarith
          · exact hok h (List.mem_cons_of_mem _ hmem)
        · exact hok h hh
      · rcases List.mem_cons.mp hh with heq | hmem
        · rw [heq]
          exact hok x (List.mem_cons_self _ _)
        · exact ih (fun h hh => hok h (List.mem_cons_of_mem _ hh)) h hmem

theorem refundFold_ok {hs : List Holder} {backers : List (ℕ × ℚ)}
    (hok : ∀ h ∈ hs, HolderOk h) (hb : ∀ b ∈ backers, 0 ≤ b.2) :
    ∀ h ∈ backers.foldl (fun hs b => applyRefund hs b.1 b.2) hs, HolderOk h := by
  induction backers generalizing hs with
  | nil => exact hok
  | cons x rest ih =>
      rw [List.foldl_cons]
      exact ih (applyRefund_ok hok (hb x (List.mem_cons_self _ _)))
        (fun b hbm => hb b (List.mem_cons_of_mem _ hbm))

theorem resolveAt_holders_spec (cfg : Config) (s : ModelState) (idx : ℕ) :
    (resolveAt cfg s idx).holders = s.holders ∨
    ∃ p, s.proposals.get? idx = some p ∧
      (resolveAt cfg s idx).holders =
        p.backers.foldl (fun hs b => applyRefund hs b.1 b.2) s.holders := by
  unfold resolveAt
  match hget : s.proposals.get? idx with
  | none => left; rfl
  | some p =>
      dsimp only
      match hsf : p.stepFunded with
      | none => left; rfl
      | some f =>
          dsimp only
          split
          · split
            · right
              exact ⟨p, rfl, rfl⟩
            · left; rfl
          · left; rfl

theorem stateOk_resolveAt (cfg : Config) (s : ModelState) (idx : ℕ)
    (hok : StateOk s) : StateOk (resolveAt cfg s idx) := by
  constructor
  · rcases resolveAt_holders_spec cfg s idx with hcase | ⟨p, hp, hcase⟩
    · rw [hcase]; exact hok.1
    · rw [hcase]
      exact refundFold_ok hok.1 (hok.2 p (List.get?_mem hp))
  · rcases resolveAt_spec cfg s idx with hcase | ⟨p, f, b, hp, _, _, hcase⟩
    · rw [hcase]; exact hok.2
    · rw [hcase]
      intro q hq
      rcases List.mem_or_eq_of_mem_set hq with hmem | heq
      · exact hok.2 q hmem
      · subst heq
        exact propOk_resolve p b _ (hok.2 p (List.get?_mem hp))

theorem stateOk_resolveFunded (cfg : Config) (s : ModelState)
    (hok : StateOk s) : StateOk (resolveFundedProposals cfg s) := by
  rw [resolveFundedProposals_eq_fold]
  generalize fundedIdxs s = idxs
  induction idxs generalizing s with
  | nil => exact hok
  | cons i rest ih =>
      rw [List.foldl_cons]
      exact ih _ (stateOk_resolveAt cfg s i hok)

theorem stateOk_spawnSeekers (cfg : Config) (n : ℕ) (s : ModelState)
    (hcfg : CfgOk cfg) (hok : StateOk s) : StateOk (spawnSeekers cfg n s) := by
  induction n generalizing s with
  | zero => exact hok
  | succ m ih =>
      unfold spawnSeekers
      apply ih
      constructor
      · intro h hh
        rcases List.mem_append.mp hh with hmem | hmem
        · exact hok.1 h hmem
        · rw [List.mem_singleton] at hmem
          subst hmem
          exact holderOk_mkHolder cfg s.nextAgentId (some "yield_seeker")
            s.rc hcfg
      · exact hok.2

theorem stateOk_maybeSpawnEntrants (cfg : Config) (s : ModelState)
    (hcfg : CfgOk cfg) (hok : StateOk s) :
    StateOk (maybeSpawnEntrants cfg s) := by
  unfold maybeSpawnEntrants
  dsimp only
  split
  · split
    · exact stateOk_spawnSeekers cfg _ _ hcfg ⟨hok.1, hok.2⟩
    · exact hok
  · exact hok

theorem stateOk_addProposal (cfg : Config) (s : ModelState)
    (hok : StateOk s) : StateOk (addProposal cfg s) := by
  constructor
  · exact hok.1
  · intro p hp
    rw [addProposal_proposals] at hp
    rcases List.mem_append.mp hp with hmem | hmem
    · exact hok.2 p hmem
    · rw [List.mem_singleton] at hmem
      subst hmem
      intro b hb
      simp at hb

theorem stateOk_maybeSpawnProposal (cfg : Config) (s : ModelState)
    (hok : StateOk s) : StateOk (maybeSpawnProposal cfg s) := by
  unfold maybeSpawnProposal
  dsimp only
  split
  · split
    · exact stateOk_addProposal cfg _ ⟨hok.1, hok.2⟩
    · exact hok
  · exact hok

theorem stateOk_step (cfg : Config) (order : List ℕ) (s : ModelState)
    (hcfg : CfgOk cfg) (hok : StateOk s) : StateOk (s.step cfg order) := by
  unfold ModelState.step
  apply stateOk_maybeSpawnProposal
  apply stateOk_maybeSpawnEntrants cfg _ hcfg
  apply stateOk_resolveFunded
  have hup : StateOk (holderPass cfg order (stepPre s)).1 →
      StateOk (updateTotals cfg (holderPass cfg order (stepPre s)).1) :=
    fun h => ⟨h.1, h.2⟩
  exact hup (stateOk_holderPass cfg order (stepPre s) hcfg.2.1 ⟨hok.1, hok.2⟩)

theorem stateOk_spawnHolders (cfg : Config) (count : ℕ) (s : ModelState)
    (hcfg : CfgOk cfg) (hok : StateOk s) :
    StateOk (spawnHolders cfg count s) := by
  unfold spawnHolders
  generalize archetypeCounts cfg.archetypeMix count = cnts
  induction cnts generalizing s with
  | nil => exact hok
  | cons x rest ih =>
      rw [List.foldl_cons]
      apply ih
      obtain ⟨aid, m⟩ := x
      dsimp only
      clear ih
      induction m generalizing s with
      | zero => exact hok
      | succ k ihm =>
          unfold spawnArchHolders
          apply ihm
          constructor
          · intro h hh
            rcases List.mem_append.mp hh with hmem | hmem
            · exact hok.1 h hmem
            · rw [List.mem_singleton] at hmem
              subst hmem
              exact holderOk_mkHolder cfg s.nextAgentId (some aid) s.rc hcfg
          · exact hok.2

theorem stateOk_runSteps (cfg : Config) (c0 : RC) (sh : ℕ → List ℕ)
    (hcfg : CfgOk cfg) (n : ℕ) : StateOk (runSteps cfg c0 sh n) := by
  induction n with
  | zero =>
      unfold runSteps EndowmentModel.init
      have hsp : ∀ m (s : ModelState), StateOk s →
          StateOk (spawnProposals cfg m s) := by
        intro m
        induction m with
        | zero => exact fun s h => h
        | succ k ih => exact fun s h => ih _ (stateOk_addProposal cfg s h)
      apply hsp
      apply stateOk_spawnHolders cfg _ _ hcfg
      exact ⟨by intro h hh; simp at hh, by intro p hp; simp at hp⟩
  | succ m ih => exact stateOk_step cfg (sh m) _ hcfg ih

/-! ### Pointwise tracing of one step, for the temporal claims -/

theorem passEvolve_refl (n : ℕ) (p : Proposal) : PassEvolve n p p :=
  ⟨rfl, rfl, Or.inl ⟨rfl, rfl⟩⟩

theorem passEvolve_trans {n : ℕ} {p q r : Proposal}
    (h1 : PassEvolve n p q) (h2 : PassEvolve n q r) : PassEvolve n p r := by
  obtain ⟨a1, b1, c1⟩ := h1
  obtain ⟨a2, b2, c2⟩ := h2
  refine ⟨a2.trans a1, b2.trans b1, ?_⟩
  rcases c1 with ⟨s1, f1⟩ | ⟨o1, s1, f1⟩
  · rcases c2 with ⟨s2, f2⟩ | ⟨o2, s2, f2⟩
    · exact Or.inl ⟨s2.trans s1, f2.trans f1⟩
    · exact Or.inr ⟨s1 ▸ o2, s2, f2⟩
  · rcases c2 with ⟨s2, f2⟩ | ⟨o2, s2, f2⟩
    · exact Or.inr ⟨o1, s2.trans s1, f2.trans f1⟩
    · rw [s1] at o2
      cases o2

theorem passEvolve_receive (n : ℕ) (p : Proposal) (hid : ℕ) (b : ℚ) :
    PassEvolve n p (p.receiveCredits hid b n) := by
  refine ⟨receiveCredits_stepResolved p hid b n,
    receiveCredits_fundingTarget p hid b n, ?_⟩
  rcases receiveCredits_status_spec p hid b n with ⟨hs, hf⟩ | ⟨ho, _, hs, hf⟩
  · exact Or.inl ⟨hs, hf⟩
  · exact Or.inr ⟨ho, hs, hf⟩

theorem holderStepAt_proposals_pointwise (cfg : Config) (s : ModelState)
    (idx : ℕ) :
    (holderStepAt cfg s idx).1.proposals.length = s.proposals.length ∧
    ∀ j p q, s.proposals.get? j = some p →
      (holderStepAt cfg s idx).1.proposals.get? j = some q →
      PassEvolve s.stepCount p q := by
  rcases holderStepAt_proposals_spec cfg s idx with hcase |
    ⟨pIdx, p0, hid, b, hp0, _, _, hcase⟩
  · rw [hcase]
    refine ⟨rfl, fun j p q hp hq => ?_⟩
    rw [hp] at hq
    rw [← Option.some_injective _ hq]
    exact passEvolve_refl _ _
  · rw [hcase]
    refine ⟨List.length_set _ _ _, fun j p q hp hq => ?_⟩
    by_cases hj : pIdx = j
    · subst hj
      have hlen : pIdx < s.proposals.length := (List.get?_eq_some.mp hp0).1
      rw [List.get?_set_eq_of_lt _ hlen] at hq
      rw [hp0] at hp
      rw [← Option.some_injective _ hq, ← Option.some_injective _ hp]
      exact passEvolve_receive _ _ _ _
    · rw [List.get?_set_ne _ _ hj, hp] at hq
      rw [← Option.some_injective _ hq]
      exact passEvolve_refl _ _

theorem holderPass_proposals_pointwise (cfg : Config) (order : List ℕ)
    (s : ModelState) :
    (holderPass cfg order s).1.proposals.length = s.proposals.length ∧
    ∀ j p q, s.proposals.get? j = some p →
      (holderPass cfg order s).1.proposals.get? j = some q →
      PassEvolve s.stepCount p q := by
  induction order generalizing s with
  | nil =>
      refine ⟨rfl, fun j p q hp hq => ?_⟩
      have hq' : s.proposals.get? j = some q := hq
      rw [hp] at hq'
      rw [← Option.some_injective _ hq']
      exact passEvolve_refl _ _
  | cons i rest ih =>
      obtain ⟨hl1, hpt1⟩ := holderStepAt_proposals_pointwise cfg s i
      obtain ⟨hl2, hpt2⟩ := ih (holderStepAt cfg s i).1
      have hsc : (holderStepAt cfg s i).1.stepCount = s.stepCount :=
        holderStepAt_stepCount cfg s i
      constructor
      · show (holderPass cfg rest (holderStepAt cfg s i).1).1.proposals.length = _
        rw [hl2, hl1]
      · intro j p q hp hq
        have hjlt : j < s.proposals.length := (List.get?_eq_some.mp hp).1
        have hjlt1 : j < (holderStepAt cfg s i).1.proposals.length := by
          rw [hl1]; exact hjlt
        obtain ⟨mid, hmid⟩ :
            ∃ m, (holderStepAt cfg s i).1.proposals.get? j = some m :=
          ⟨(holderStepAt cfg s i).1.proposals.get ⟨j, hjlt1⟩,
            List.get?_eq_get hjlt1⟩
        have h1 := hpt1 j p mid hp hmid
        have h2 := hpt2 j mid q hmid
          (by show (holderPass cfg rest (holderStepAt cfg s i).1).1.proposals.get? j = some q
              exact hq)
        rw [hsc] at h2
        exact passEvolve_trans h1 h2

theorem resolveAt_stable (cfg : Config) (s : ModelState) (idx : ℕ)
    (p : Proposal) (hp : s.proposals.get? idx = some p)
    (hng : ∀ f, p.stepFunded = some f → ¬ f < s.stepCount) :
    resolveAt cfg s idx = s := by
  unfold resolveAt
  rw [hp]
  dsimp only
  match hsf : p.stepFunded with
  | none => rfl
  | some f =>
      dsimp only
      rw [if_neg (hng f hsf)]

theorem resolveAt_eligible_true (cfg : Config) (s : ModelState) (idx : ℕ)
    (hsucc : ∀ k, cfg.unitStream k < cfg.successRate)
    (p : Proposal) (f : ℕ) (hp : s.proposals.get? idx = some p)
    (hf : p.stepFunded = some f) (hlt : f < s.stepCount) :
    (resolveAt cfg s idx).proposals =
      s.proposals.set idx (p.resolve true s.stepCount) := by
  unfold resolveAt
  rw [hp]
  dsimp only
  rw [hf]
  dsimp only
  rw [if_pos hlt]
  have hdec : decide ((cfg.rand s.rc).1 < cfg.successRate) = true :=
    decide_eq_true (hsucc s.rc.u)
  rw [hdec]
  rw [if_neg (by simp)]
  rfl

theorem resolveFold_get?_not_mem (cfg : Config) (idxs : List ℕ)
    (s : ModelState) (j : ℕ) (hj : j ∉ idxs) :
    (idxs.foldl (resolveAt cfg) s).proposals.get? j =
      s.proposals.get? j := by
  induction idxs generalizing s with
  | nil => rfl
  | cons i rest ih =>
      rw [List.foldl_cons]
      have hij : i ≠ j := fun h => hj (h ▸ List.mem_cons_self _ _)
      rw [ih _ (fun h => hj (List.mem_cons_of_mem _ h)),
        resolveAt_get?_ne cfg s i j hij]

theorem resolveFold_get?_stable (cfg : Config) (idxs : List ℕ)
    (s : ModelState) (j : ℕ) (p : Proposal)
    (hp : s.proposals.get? j = some p)
    (hng : ∀ f, p.stepFunded = some f → ¬ f < s.stepCount) :
    (idxs.foldl (resolveAt cfg) s).proposals.get? j = some p := by
  revert hp hng
  induction idxs generalizing s with
  | nil => intro hp _; exact hp
  | cons i rest ih =>
      intro hp hng
      rw [List.foldl_cons]
      by_cases hij : i = j
      · subst hij
        rw [resolveAt_stable cfg s i p hp hng]
        exact ih s hp hng
      · apply ih
        · rw [resolveAt_get?_ne cfg s i j hij]
          exact hp
        · intro f hf
          rw [resolveAt_stepCount]
          exact hng f hf

theorem resolveFold_get?_complete (cfg : Config) (idxs : List ℕ)
    (s : ModelState) (hnd : idxs.Pairwise (· ≠ ·))
    (hsucc : ∀ k, cfg.unitStream k < cfg.successRate)
    (j : ℕ) (hj : j ∈ idxs) (p : Proposal) (f : ℕ)
    (hp : s.proposals.get? j = some p) (hf : p.stepFunded = some f)
    (hlt : f < s.stepCount) :
    (idxs.foldl (resolveAt cfg) s).proposals.get? j =
      some (p.resolve true s.stepCount) := by
  revert hnd hj hp hlt
  induction idxs generalizing s with
  | nil => intro _ hj; cases hj
  | cons i rest ih =>
      intro hnd hj hp hlt
      rw [List.foldl_cons]
      by_cases hij : i = j
      · subst hij
        have hset := resolveAt_eligible_true cfg s i hsucc p f hp hf hlt
        have hrest : i ∉ rest := fun hmem =>
          (List.rel_of_pairwise_cons hnd hmem) rfl
        rw [resolveFold_get?_not_mem cfg rest _ i hrest, hset]
        have hlen : i < s.proposals.length := (List.get?_eq_some.mp hp).1
        rw [List.get?_set_eq_of_lt _ hlen]
      · have hj' : j ∈ rest := by
          rcases List.mem_cons.mp hj with h | h
          · exact absurd h.symm hij
          · exact h
        have h1 : (resolveAt cfg s i).proposals.get? j = some p := by
          rw [resolveAt_get?_ne cfg s i j hij]
          exact hp
        have h2 : f < (resolveAt cfg s i).stepCount := by
          rw [resolveAt_stepCount]
          exact hlt
        have h3 := ih (resolveAt cfg s i) hnd.of_cons hj' h1 h2
        rw [resolveAt_stepCount] at h3
        exact h3

theorem mem_fundedIdxs_of_funded (s : ModelState) (j : ℕ) (p : Proposal)
    (hp : s.proposals.get? j = some p) (hst : p.status = .funded) :
    j ∈ fundedIdxs s := by
  unfold fundedIdxs
  apply List.mem_map.mpr
  refine ⟨(j, p), ?_, rfl⟩
  apply List.mem_filter.mpr
  exact ⟨List.mk_mem_enum_iff_get?.mpr hp, decide_eq_true hst⟩

theorem not_mem_fundedIdxs (s : ModelState) (j : ℕ) (p : Proposal)
    (hp : s.proposals.get? j = some p) (hst : p.status ≠ .funded) :
    j ∉ fundedIdxs s := fun hj => hst (fundedIdxs_funded s j hj p hp)

theorem get?_append_singleton {α : Type} (l : List α) (x : α) (j : ℕ)
    (q : α) (h : (l ++ [x]).get? j = some q) :
    l.get? j = some q ∨ q = x := by
  rcases lt_or_ge j l.length with hlt | hge
  · left
    rw [List.get?_append hlt] at h
    exact h
  · right
    have hlen : j < (l ++ [x]).length := (List.get?_eq_some.mp h).1
    rw [List.length_append, List.length_singleton] at hlen
    have hje : j = l.length := le_antisymm (Nat.lt_succ_iff.mp hlen) hge
    subst hje
    rw [List.get?_concat_length] at h
    exact (Option.some_injective _ h).symm

/-! ### Resolution timing invariants (claim C7) -/

theorem c7aSt_mono {m n : ℕ} (h : m ≤ n) {p : Proposal}
    (hp : C7aSt m p) : C7aSt n p := by
  obtain ⟨h1, h2, h3⟩ := hp
  refine ⟨fun f hf => le_trans (h1 f hf) h, h2, fun r hr => ?_⟩
  obtain ⟨hrm, f, hfa, hfr⟩ := h3 r hr
  exact ⟨le_trans hrm h, f, hfa, hfr⟩

theorem c7aSt_of_fresh (n : ℕ) (q : Proposal) (hf : q.stepFunded = none)
    (hr : q.stepResolved = none) : C7aSt n q := by
  refine ⟨?_, fun _ => ⟨hf, hr⟩, ?_⟩
  · intro f hfx
    rw [hf] at hfx
    cases hfx
  · intro r hrx
    rw [hr] at hrx
    cases hrx

theorem c7aSt_passEvolve {n : ℕ} {p q : Proposal}
    (h : PassEvolve n p q) (ha : C7aSt n p) : C7aSt n q := by
  obtain ⟨hsr, _, hc⟩ := h
  obtain ⟨h1, h2, h3⟩ := ha
  rcases hc with ⟨hs, hfsame⟩ | ⟨hpo, hmf, hmsf⟩
  · refine ⟨?_, ?_, ?_⟩
    · intro f hf
      exact h1 f (hfsame ▸ hf)
    · intro ho
      rw [hs] at ho
      obtain ⟨ha1, ha2⟩ := h2 ho
      exact ⟨hfsame.trans ha1, hsr.trans ha2⟩
    · intro r hr
      rw [hsr] at hr
      obtain ⟨hrn, f, hfa, hfr⟩ := h3 r hr
      exact ⟨hrn, f, hfsame.trans hfa, hfr⟩
  · obtain ⟨hsfn, hsrn⟩ := h2 hpo
    refine ⟨?_, ?_, ?_⟩
    · intro f hf
      rw [hmsf] at hf
      exact le_of_eq (Option.some_injective _ hf).symm
    · intro ho
      rw [hmf] at ho
      cases ho
    · intro r hr
      rw [hsr, hsrn] at hr
      cases hr

theorem c7aSt_resolve (p : Proposal) (b : Bool) (n f : ℕ)
    (hf : p.stepFunded = some f) (hlt : f < n) :
    C7aSt n (p.resolve b n) := by
  refine ⟨?_, ?_, ?_⟩
  · intro f' hf'
    have hsf : (p.resolve b n).stepFunded = p.stepFunded := rfl
    rw [hsf, hf] at hf'
    exact le_of_lt ((Option.some_injective _ hf') ▸ hlt)
  · intro ho
    have hst : (p.resolve b n).status =
        (if b then .completed else .failed) := rfl
    rw [hst] at ho
    cases b <;> simp at ho
  · intro r hr
    have hsr : (p.resolve b n).stepResolved = some n := rfl
    rw [hsr] at hr
    have hrn : n = r := Option.some_injective _ hr
    subst hrn
    exact ⟨le_refl n, f, hf, hlt⟩

/-- The model step up to resolution, traced position by position: every
surviving proposal came from the same position of the previous state,
first evolved by the holder pass and then possibly resolved once. -/
theorem step_core_trace (cfg : Config) (order : List ℕ) (s : ModelState)
    (j : ℕ) (q : Proposal)
    (hq : (resolveFundedProposals cfg (updateTotals cfg
      (holderPass cfg order (stepPre s)).1)).proposals.get? j = some q) :
    ∃ p mid, s.proposals.get? j = some p ∧
      PassEvolve (s.stepCount + 1) p mid ∧
      (q = mid ∨ ∃ b f, mid.stepFunded = some f ∧ f < s.stepCount + 1 ∧
        q = mid.resolve b (s.stepCount + 1)) := by
  set s1 := stepPre s with hs1
  set s2 := (holderPass cfg order s1).1 with hs2
  set s3 := updateTotals cfg s2 with hs3
  have hlen4 : (resolveFundedProposals cfg s3).proposals.length =
      s3.proposals.length := by
    rw [resolveFundedProposals_eq_fold]
    exact resolveFold_length _ _ _
  have hjlt : j < s3.proposals.length := by
    rw [← hlen4]
    exact (List.get?_eq_some.mp hq).1
  obtain ⟨mid, hmid⟩ : ∃ m, s3.proposals.get? j = some m :=
    ⟨_, List.get?_eq_get hjlt⟩
  obtain ⟨hplen, hppt⟩ := holderPass_proposals_pointwise cfg order s1
  have hjlt1 : j < s1.proposals.length := by
    have h2 : j < s2.proposals.length := hjlt
    rw [hplen] at h2
    exact h2
  obtain ⟨p, hp1⟩ : ∃ p, s1.proposals.get? j = some p :=
    ⟨_, List.get?_eq_get hjlt1⟩
  have hmid2 : s2.proposals.get? j = some mid := hmid
  have hpe : PassEvolve (s.stepCount + 1) p mid := hppt j p mid hp1 hmid2
  have hp0 : s.proposals.get? j = some p := hp1
  refine ⟨p, mid, hp0, hpe, ?_⟩
  have hsc3 : s3.stepCount = s.stepCount + 1 := by
    rw [hs3, updateTotals_stepCount, hs2, holderPass_stepCount, hs1]
    rfl
  rw [resolveFundedProposals_eq_fold] at hq
  rcases resolveFold_get? cfg (fundedIdxs s3) s3 (fundedIdxs_pairwise s3) j
    with hcase | ⟨_, p', f, b, hp', hf', hlt', hcase⟩
  · left
    rw [hcase, hmid] at hq
    exact (Option.some_injective _ hq).symm
  · right
    rw [hmid] at hp'
    have hpm : p' = mid := (Option.some_injective _ hp').symm
    subst hpm
    rw [hsc3] at hlt' hcase
    rw [hcase] at hq
    exact ⟨b, f, hf', hlt', (Option.some_injective _ hq).symm⟩

theorem c7a_core (cfg : Config) (order : List ℕ) (s : ModelState)
    (ha : ∀ p ∈ s.proposals, C7aSt s.stepCount p) :
    ∀ q ∈ (resolveFundedProposals cfg (updateTotals cfg
      (holderPass cfg order (stepPre s)).1)).proposals,
      C7aSt (s.stepCount + 1) q := by
  intro q hq
  obtain ⟨j, hj⟩ := List.mem_iff_get?.mp hq
  obtain ⟨p, mid, hp, hpe, hres⟩ := step_core_trace cfg order s j q hj
  have hap : C7aSt (s.stepCount + 1) p :=
    c7aSt_mono (Nat.le_succ _) (ha p (List.get?_mem hp))
  have ham : C7aSt (s.stepCount + 1) mid := c7aSt_passEvolve hpe hap
  rcases hres with rfl | ⟨b, f, hf, hlt, rfl⟩
  · exact ham
  · exact c7aSt_resolve mid b _ f hf hlt

theorem c7a_step (cfg : Config) (order : List ℕ) (s : ModelState)
    (ha : ∀ p ∈ s.proposals, C7aSt s.stepCount p) :
    ∀ q ∈ (s.step cfg order).proposals, C7aSt (s.stepCount + 1) q := by
  intro q hq
  have hstep : (s.step cfg order).proposals =
      (maybeSpawnProposal cfg (maybeSpawnEntrants cfg
        (resolveFundedProposals cfg (updateTotals cfg
          (holderPass cfg order (stepPre s)).1)))).proposals := rfl
  rw [hstep] at hq
  rcases maybeSpawnProposal_proposals_spec cfg (maybeSpawnEntrants cfg _)
    with hcase | ⟨qn, hqopen, hqb, hqc, hqf, hqr, hcase⟩
  · rw [hcase, maybeSpawnEntrants_proposals] at hq
    exact c7a_core cfg order s ha q hq
  · rw [hcase] at hq
    rcases List.mem_append.mp hq with hmem | hmem
    · rw [maybeSpawnEntrants_proposals] at hmem
      exact c7a_core cfg order s ha q hmem
    · rw [List.mem_singleton] at hmem
      subst hmem
      exact c7aSt_of_fresh _ _ hqf hqr

theorem c7aSt_runSteps (cfg : Config) (c0 : RC) (sh : ℕ → List ℕ) (n : ℕ) :
    ∀ p ∈ (runSteps cfg c0 sh n).proposals, C7aSt n p := by
  induction n with
  | zero =>
      apply init_proposals_inv
      intro uid ft m
      exact c7aSt_of_fresh _ _ rfl rfl
  | succ m ih =>
      intro p hp
      have ih' : ∀ p ∈ (runSteps cfg c0 sh m).proposals,
          C7aSt (runSteps cfg c0 sh m).stepCount p := by
        rw [runSteps_stepCount]
        exact ih
      have h := c7a_step cfg (sh m) (runSteps cfg c0 sh m) ih' p hp
      rw [runSteps_stepCount] at h
      exact h

theorem c7bSt_of_fresh (n : ℕ) (q : Proposal)
    (hf : q.stepFunded = none) : C7bSt n q := by
  intro f hfx
  rw [hf] at hfx
  cases hfx

theorem c7b_core (cfg : Config) (order : List ℕ) (s : ModelState)
    (hsucc : ∀ k, cfg.unitStream k < cfg.successRate)
    (ha : ∀ p ∈ s.proposals, C7aSt s.stepCount p)
    (hb : ∀ p ∈ s.proposals, C7bSt s.stepCount p) :
    ∀ q ∈ (resolveFundedProposals cfg (updateTotals cfg
      (holderPass cfg order (stepPre s)).1)).proposals,
      C7bSt (s.stepCount + 1) q := by
  intro q hq
  obtain ⟨j, hj⟩ := List.mem_iff_get?.mp hq
  set s1 := stepPre s with hs1
  set s2 := (holderPass cfg order s1).1 with hs2
  set s3 := updateTotals cfg s2 with hs3
  have hsc3 : s3.stepCount = s.stepCount + 1 := by
    rw [hs3, updateTotals_stepCount, hs2, holderPass_stepCount, hs1]
    rfl
  have hlen4 : (resolveFundedProposals cfg s3).proposals.length =
      s3.proposals.length := by
    rw [resolveFundedProposals_eq_fold]
    exact resolveFold_length _ _ _
  have hjlt : j < s3.proposals.length := by
    rw [← hlen4]
    exact (List.get?_eq_some.mp hj).1
  obtain ⟨mid, hmid⟩ : ∃ m, s3.proposals.get? j = some m :=
    ⟨_, List.get?_eq_get hjlt⟩
  obtain ⟨hplen, hppt⟩ := holderPass_proposals_pointwise cfg order s1
  have hjlt1 : j < s1.proposals.length := by
    have h2 : j < s2.proposals.length := hjlt
    rw [hplen] at h2
    exact h2
  obtain ⟨p, hp1⟩ : ∃ p, s1.proposals.get? j = some p :=
    ⟨_, List.get?_eq_get hjlt1⟩
  have hmid2 : s2.proposals.get? j = some mid := hmid
  have hpe : PassEvolve (s.stepCount + 1) p mid := hppt j p mid hp1 hmid2
  have hpmem : p ∈ s.proposals := List.get?_mem hp1
  have hap := ha p hpmem
  have hbp := hb p hpmem
  rw [resolveFundedProposals_eq_fold] at hj
  obtain ⟨hsr, _, hc⟩ := hpe
  rcases hc with ⟨hsame, hfsame⟩ | ⟨hpo, hmf, hmsf⟩
  · -- the pass left the status and funding step of this proposal alone
    cases hsf : p.stepFunded with
    | none =>
        have hmidf : mid.stepFunded = none := by rw [hfsame, hsf]
        have hstable := resolveFold_get?_stable cfg (fundedIdxs s3) s3 j
          mid hmid (fun f hf => by rw [hmidf] at hf; cases hf)
        rw [hstable] at hj
        have hqm : q = mid := (Option.some_injective _ hj).symm
        subst hqm
        exact c7bSt_of_fresh _ _ hmidf
    | some f =>
        have hfn : f ≤ s.stepCount := hap.1 f hsf
        have hmidf : mid.stepFunded = some f := by rw [hfsame, hsf]
        rcases lt_or_eq_of_le hfn with hflt | hfeq
        · -- funded strictly before this step: already completed, untouched
          obtain ⟨hpst, hpsr⟩ := (hbp f hsf).2 hflt
          have hmst : mid.status = .completed := by rw [hsame, hpst]
          have hnm : j ∉ fundedIdxs s3 :=
            not_mem_fundedIdxs s3 j mid hmid (by rw [hmst]; intro hx; cases hx)
          rw [resolveFold_get?_not_mem cfg _ s3 j hnm, hmid] at hj
          have hqm : q = mid := (Option.some_injective _ hj).symm
          subst hqm
          intro f' hf'
          rw [hmidf] at hf'
          have hff : f = f' := Option.some_injective _ hf'
          subst hff
          constructor
          · intro h1
            exact absurd h1 (by omega)
          · intro _
            exact ⟨hmst, by rw [hsr, hpsr]⟩
        · -- funded exactly last step: resolved now, successfully
          have hpfst : p.status = .funded := (hbp f hsf).1 hfeq
          have hmst : mid.status = .funded := by rw [hsame, hpfst]
          have hjmem : j ∈ fundedIdxs s3 :=
            mem_fundedIdxs_of_funded s3 j mid hmid hmst
          have hcomp := resolveFold_get?_complete cfg (fundedIdxs s3) s3
            (fundedIdxs_pairwise s3) hsucc j hjmem mid f hmid hmidf
            (by rw [hsc3]; omega)
          rw [hsc3] at hcomp
          rw [hcomp] at hj
          have hqm : q = mid.resolve true (s.stepCount + 1) :=
            (Option.some_injective _ hj).symm
          subst hqm
          intro f' hf'
          have hsfr : (mid.resolve true (s.stepCount + 1)).stepFunded =
              mid.stepFunded := rfl
          rw [hsfr, hmidf] at hf'
          have hff : f = f' := Option.some_injective _ hf'
          subst hff
          constructor
          · intro h1
            exact absurd h1 (by omega)
          · intro _
            refine ⟨rfl, ?_⟩
            show some (s.stepCount + 1) = some (f + 1)
            rw [hfeq]
  · -- newly funded during this pass: recorded at the current counter
    have hstable := resolveFold_get?_stable cfg (fundedIdxs s3) s3 j
      mid hmid (fun f hf => by
        rw [hmsf] at hf
        have hfv : s.stepCount + 1 = f := Option.some_injective _ hf
        rw [hsc3]
        omega)
    rw [hstable] at hj
    have hqm : q = mid := (Option.some_injective _ hj).symm
    subst hqm
    intro f' hf'
    rw [hmsf] at hf'
    have hfv : s.stepCount + 1 = f' := Option.some_injective _ hf'
    constructor
    · intro _
      exact hmf
    · intro hlt'
      exact absurd hlt' (by omega)

theorem c7b_step (cfg : Config) (order : List ℕ) (s : ModelState)
    (hsucc : ∀ k, cfg.unitStream k < cfg.successRate)
    (ha : ∀ p ∈ s.proposals, C7aSt s.stepCount p)
    (hb : ∀ p ∈ s.proposals, C7bSt s.stepCount p) :
    ∀ q ∈ (s.step cfg order).proposals, C7bSt (s.stepCount + 1) q := by
  intro q hq
  have hstep : (s.step cfg order).proposals =
      (maybeSpawnProposal cfg (maybeSpawnEntrants cfg
        (resolveFundedProposals cfg (updateTotals cfg
          (holderPass cfg order (stepPre s)).1)))).proposals := rfl
  rw [hstep] at hq
  rcases maybeSpawnProposal_proposals_spec cfg (maybeSpawnEntrants cfg _)
    with hcase | ⟨qn, hqopen, hqb, hqc, hqf, hqr, hcase⟩
  · rw [hcase, maybeSpawnEntrants_proposals] at hq
    exact c7b_core cfg order s hsucc ha hb q hq
  · rw [hcase] at hq
    rcases List.mem_append.mp hq with hmem | hmem
    · rw [maybeSpawnEntrants_proposals] at hmem
      exact c7b_core cfg order s hsucc ha hb q hmem
    · rw [List.mem_singleton] at hmem
      subst hmem
      exact c7bSt_of_fresh _ _ hqf

theorem c7bSt_runSteps (cfg : Config) (c0 : RC) (sh : ℕ → List ℕ)
    (hsucc : ∀ k, cfg.unitStream k < cfg.successRate) (n : ℕ) :
    ∀ p ∈ (runSteps cfg c0 sh n).proposals, C7bSt n p := by
  induction n with
  | zero =>
      apply init_proposals_inv
      intro uid ft m
      exact c7bSt_of_fresh _ _ rfl
  | succ m ih =>
      intro p hp
      have ih' : ∀ p ∈ (runSteps cfg c0 sh m).proposals,
          C7bSt (runSteps cfg c0 sh m).stepCount p := by
        rw [runSteps_stepCount]
        exact ih
      have ha' : ∀ p ∈ (runSteps cfg c0 sh m).proposals,
          C7aSt (runSteps cfg c0 sh m).stepCount p := by
        rw [runSteps_stepCount]
        exact c7aSt_runSteps cfg c0 sh m
      have h := c7b_step cfg (sh m) (runSteps cfg c0 sh m) hsucc ha' ih' p hp
      rw [runSteps_stepCount] at h
      exact h

/-! ### What each holder observes during the pass (claim C2) -/

theorem phaseEarn_obs (cfg : Config) (s : ModelState) (idx : ℕ) :
    (phaseEarn cfg s idx).2 = s.totalEffectiveRsc := by
  unfold phaseEarn
  dsimp only
  repeat' split
  all_goals rfl

/-- An active holder's observed `total_effective_rsc` is the live value
recomputed from the holder list as it stands when that holder earns —
after its own week advance and after every mutation made by earlier
holders in the shuffled order. -/
theorem holderStepAt_obs (cfg : Config) (s : ModelState) (idx : ℕ)
    (h : Holder) (hh : s.holders.get? idx = some h)
    (hact : h.active = true) :
    (holderStepAt cfg s idx).2 =
      some ((phaseAdvance s idx).totalEffectiveRsc) := by
  unfold holderStepAt
  rw [hh]
  dsimp only
  rw [hact, if_pos rfl]
  dsimp only
  rw [phaseEarn_obs]

/-- Position `l1.length` of the pass's observation list is the value the
holder visited at that position saw, computed from the state left behind
by the earlier prefix `l1` of the shuffled order. -/
theorem holderPass_obs_append (cfg : Config) (s : ModelState)
    (l1 : List ℕ) (i : ℕ) (l2 : List ℕ) :
    (holderPass cfg (l1 ++ i :: l2) s).2.get? l1.length =
      some (holderStepAt cfg (holderPass cfg l1 s).1 i).2 := by
  induction l1 generalizing s with
  | nil => rfl
  | cons a t ih =>
      have h1 : holderPass cfg ((a :: t) ++ i :: l2) s =
          ((holderPass cfg (t ++ i :: l2) (holderStepAt cfg s a).1).1,
           (holderStepAt cfg s a).2 ::
             (holderPass cfg (t ++ i :: l2) (holderStepAt cfg s a).1).2) :=
        rfl
      rw [h1]
      show (holderPass cfg (t ++ i :: l2)
        (holderStepAt cfg s a).1).2.get? t.length = _
      rw [ih]
      rfl

/-! ### Small evaluation helpers for the concrete streams -/

theorem getD_bounds (l : List ℚ) (d : ℚ)
    (hl : ∀ x ∈ l, 0 ≤ x ∧ x ≤ 1) (hd : 0 ≤ d ∧ d ≤ 1) :
    ∀ i, 0 ≤ l.getD i d ∧ l.getD i d ≤ 1 := by
  intro i
  induction l generalizing i with
  | nil => exact hd
  | cons x rest ih =>
      match i with
      | 0 => exact hl x (List.mem_cons_self _ _)
      | n + 1 => exact ih (fun y hy => hl y (List.mem_cons_of_mem _ hy)) n

theorem getD_lt_one (l : List ℚ) (d : ℚ)
    (hl : ∀ x ∈ l, x < 1) (hd : d < 1) : ∀ i, l.getD i d < 1 := by
  intro i
  induction l generalizing i with
  | nil => exact hd
  | cons x rest ih =>
      match i with
      | 0 => exact hl x (List.mem_cons_self _ _)
      | n + 1 => exact ih (fun y hy => hl y (List.mem_cons_of_mem _ hy)) n

theorem cfg7_stream_lt : ∀ k, cfg7.unitStream k < cfg7.successRate := by
  show ∀ k, uList7.getD k (1 / 2) < 1
  apply getD_lt_one
  · intro x hx
    unfold uList7 at hx
    fin_cases hx <;> norm_num
  · norm_num

theorem cfgC2_ok : CfgOk cfgC2 := by
  refine ⟨?_, fun t => le_refl 0, fun x hx => by cases hx⟩
  show ∀ i, 0 ≤ uListC2.getD i 0 ∧ uListC2.getD i 0 ≤ 1
  apply getD_bounds
  · intro x hx
    unfold uListC2 at hx
    fin_cases hx <;> constructor <;> norm_num
  · norm_num

/-! ### Multiplier schedule helpers (claim C3) -/

theorem multiplier_eq_schedule (w : ℕ) :
    (get_time_weight_multiplier w).multiplier =
      if w < 4 then 1 else if w ≤ 52 then 23 / 20 else 6 / 5 := by
  unfold get_time_weight_multiplier
  split_ifs <;> rfl

theorem multiplier_mono {v w : ℕ} (hvw : v ≤ w) :
    (get_time_weight_multiplier v).multiplier ≤
      (get_time_weight_multiplier w).multiplier := by
  rw [multiplier_eq_schedule, multiplier_eq_schedule]
  split_ifs
  all_goals first | (exfalso; omega) | norm_num

theorem mkCustomHolder_archetype (cfg : Config) (uid : ℕ) (label : String)
    (c : RC) : (mkCustomHolder cfg uid label c).1.archetype = label := by
  unfold mkCustomHolder
  dsimp only

/-! ### The claims -/

/-- Claim C1, counterexample: the per-step holder visiting order comes
from Mesa's unseeded `shuffle_do`, not from the configuration, so two
models with identical configuration (identical seeded streams `cfgC1`,
identical start cursor) advanced by one `step()` can end with different
holder collections — here the per-holder `total_deployed` values differ
between the visiting orders `[0, 1]` and `[1, 0]`. -/
theorem c1_counterexample :
    (runSteps cfgC1 rc0 (fun _ => [0, 1]) 1).holders.map
        Holder.totalDeployed ≠
      (runSteps cfgC1 rc0 (fun _ => [1, 0]) 1).holders.map
        Holder.totalDeployed := by
  with_unfolding_all decide

/-- Claim C1, amended: determinism does hold once the iteration order is
pinned down — identical configuration, identical start cursor and
identical per-step shuffle orders over the first `n` steps give identical
holder and proposal collections after `n` steps. -/
theorem c1_amended (cfg : Config) (c0 : RC) (sh1 sh2 : ℕ → List ℕ)
    (n : ℕ) (h : ∀ k, k < n → sh1 k = sh2 k) :
    (runSteps cfg c0 sh1 n).holders = (runSteps cfg c0 sh2 n).holders ∧
    (runSteps cfg c0 sh1 n).proposals =
      (runSteps cfg c0 sh2 n).proposals := by
  rw [runSteps_congr_shuffles cfg c0 sh1 sh2 n h]
  exact ⟨rfl, rfl⟩

theorem c1_amended_witness :
    (runSteps cfgC1 rc0 (fun _ => [0, 1]) 1).holders =
      (runSteps cfgC1 rc0
        (fun k => if k = 0 then [0, 1] else [1, 0]) 1).holders ∧
    (runSteps cfgC1 rc0 (fun _ => [0, 1]) 1).proposals =
      (runSteps cfgC1 rc0
        (fun k => if k = 0 then [0, 1] else [1, 0]) 1).proposals :=
  c1_amended cfgC1 rc0 _ _ 1 (by
    intro k hk
    have hk0 : k = 0 := by omega
    subst hk0
    rfl)

/-- Claim C2, counterexample: within one `step()` of `cfgC2` the two
holders observe different live values of `total_effective_rsc`, and the
observation list is not the pre-pass snapshot repeated — the accessor is
recomputed from the mutated holder list at each use, so later holders see
the effects of earlier holders in the shuffled order. -/
theorem c2_counterexample :
    (holderPass cfgC2 [0, 1]
        (stepPre (EndowmentModel.init cfgC2 rc0))).2.get? 0 ≠
      (holderPass cfgC2 [0, 1]
        (stepPre (EndowmentModel.init cfgC2 rc0))).2.get? 1 ∧
    (holderPass cfgC2 [0, 1]
        (stepPre (EndowmentModel.init cfgC2 rc0))).2 ≠
      [some ((stepPre (EndowmentModel.init cfgC2 rc0)).totalEffectiveRsc),
       some ((stepPre (EndowmentModel.init cfgC2 rc0)).totalEffectiveRsc)] := by
  with_unfolding_all decide

/-- Claim C2, amended: what an active holder at position `i` of the
shuffled order actually observes is `total_effective_rsc` recomputed from
the state left behind by the earlier prefix of the pass (including its
own week advance), not a per-step snapshot. -/
theorem c2_amended (cfg : Config) (s : ModelState) (l1 : List ℕ) (i : ℕ)
    (l2 : List ℕ) (h : Holder)
    (hh : (holderPass cfg l1 s).1.holders.get? i = some h)
    (hact : h.active = true) :
    (holderPass cfg (l1 ++ i :: l2) s).2.get? l1.length =
      some (some ((phaseAdvance (holderPass cfg l1 s).1
        i).totalEffectiveRsc)) := by
  rw [holderPass_obs_append]
  rw [holderStepAt_obs cfg (holderPass cfg l1 s).1 i h hh hact]

theorem c2_amended_witness :
    (holderPass cfgC2 ([0] ++ 1 :: [])
        (stepPre (EndowmentModel.init cfgC2 rc0))).2.get? 1 =
      some (some ((phaseAdvance (holderPass cfgC2 [0]
        (stepPre (EndowmentModel.init cfgC2 rc0))).1
          1).totalEffectiveRsc)) := by
  have hh : (holderPass cfgC2 [0]
      (stepPre (EndowmentModel.init cfgC2 rc0))).1.holders.get? 1 =
      some ⟨2, "institution", 0, 0, 0, 0, 500, 500, 3, 0, false, 8, [], 0,
        0, 0, 0, [], true, 0, 1⟩ := by
    with_unfolding_all decide
  exact c2_amended cfgC2 (stepPre (EndowmentModel.init cfgC2 rc0)) [0] 1 []
    _ hh rfl

/-- Claim C3: the time-weight multiplier is the pure step function of
`weeks_held` given by the schedule `< 4 ↦ 1.00`, `4–52 ↦ 1.15`,
`> 52 ↦ 1.20`; it depends on nothing but `weeks_held` and is monotonically
non-decreasing in it.  (`_time_weight_multiplier` recomputes this lookup
on each call; the schedule itself is modelled from the spec because
`get_time_weight_multiplier` is missing from `src/constants.py`.) -/
theorem c3_theorem (h : Holder) :
    h.timeWeightMultiplier =
      (if h.weeksHeld < 4 then 1 else if h.weeksHeld ≤ 52 then 23 / 20
       else 6 / 5) ∧
    (h.weeksHeld < 4 → h.timeWeightMultiplier = 1) ∧
    (4 ≤ h.weeksHeld → h.weeksHeld ≤ 52 →
      h.timeWeightMultiplier = 23 / 20) ∧
    (52 < h.weeksHeld → h.timeWeightMultiplier = 6 / 5) ∧
    (∀ h' : Holder, h.weeksHeld = h'.weeksHeld →
      h.timeWeightMultiplier = h'.timeWeightMultiplier) ∧
    (∀ h' : Holder, h.weeksHeld ≤ h'.weeksHeld →
      h.timeWeightMultiplier ≤ h'.timeWeightMultiplier) := by
  have hdef : ∀ g : Holder, g.timeWeightMultiplier =
      (get_time_weight_multiplier g.weeksHeld).multiplier := fun _ => rfl
  refine ⟨?_, ?_, ?_, ?_, ?_, ?_⟩
  · rw [hdef, multiplier_eq_schedule]
  · intro hw
    rw [hdef, multiplier_eq_schedule, if_pos hw]
  · intro h4 h52
    rw [hdef, multiplier_eq_schedule, if_neg (by omega), if_pos h52]
  · intro hw
    rw [hdef, multiplier_eq_schedule, if_neg (by omega), if_neg (by omega)]
  · intro h' he
    rw [hdef, hdef, he]
  · intro h' hle
    rw [hdef, hdef]
    exact multiplier_mono hle

theorem c3_witness :
    hC5.timeWeightMultiplier = 1 ∧ hC5.weeksHeld < 4 := by
  obtain ⟨_, h2, _⟩ := c3_theorem hC5
  exact ⟨h2 (by with_unfolding_all decide), by with_unfolding_all decide⟩

/-- Claim C4, counterexample: constructing a holder with the unrecognized
archetype id `"bogus"` does not fail — the constructor silently takes the
custom branch, keeps the unknown label, and produces a fully constructed
holder (only the never-invoked `get_archetype` would have raised). -/
theorem c4_counterexample :
    (mkHolder cfgC4 0 (some "bogus") rc0).1.archetype = "bogus" ∧
    mkHolder cfgC4 0 (some "bogus") rc0 =
      mkCustomHolder cfgC4 0 "bogus" rc0 ∧
    get_archetype cfgC4.archetypes "bogus" =
      .error ⟨"bogus", ["believer", "yield_seeker", "governance",
        "speculator"]⟩ := by
  refine ⟨?_, ?_, ?_⟩
  · with_unfolding_all decide
  · with_unfolding_all decide
  · rfl

/-- Claim C4, amended: `get_archetype` does fail on an unknown id with an
error naming the invalid value and the valid key set, but
`EndowmentHolder.__init__` never calls it — its membership test routes any
unknown archetype id to the custom branch, which keeps the label and
builds a complete holder. -/
theorem c4_amended (cfg : Config) (uid : ℕ) (a : String) (c : RC)
    (hmiss : lookupStr cfg.archetypes a = none) :
    get_archetype cfg.archetypes a =
      .error ⟨a, cfg.archetypes.map Prod.fst⟩ ∧
    mkHolder cfg uid (some a) c = mkCustomHolder cfg uid a c ∧
    (mkHolder cfg uid (some a) c).1.archetype = a := by
  have h2 : mkHolder cfg uid (some a) c = mkCustomHolder cfg uid a c := by
    unfold mkHolder
    dsimp only
    rw [hmiss]
  refine ⟨?_, h2, ?_⟩
  · unfold get_archetype
    rw [hmiss]
  · rw [h2]
    exact mkCustomHolder_archetype cfg uid a c

theorem c4_amended_witness :
    get_archetype cfgC4.archetypes "nobody" =
      .error ⟨"nobody", cfgC4.archetypes.map Prod.fst⟩ ∧
    mkHolder cfgC4 1 (some "nobody") rc0 =
      mkCustomHolder cfgC4 1 "nobody" rc0 ∧
    (mkHolder cfgC4 1 (some "nobody") rc0).1.archetype = "nobody" :=
  c4_amended cfgC4 1 "nobody" rc0 (by with_unfolding_all decide)

/-- Claim C5, counterexample: with a fractional pre-deployment credit
balance (`credits = 1/2 < 1`), the burn computed by the code (denominator
`max(credits, 1)`) differs from the claimed
`rsc_held × (amount / credits_before) × burn_rate` capped at 10% — the
code burns 1 RSC where the claimed formula gives 2. -/
theorem c5_counterexample :
    (deployCredits cfgC4 0 hC5 pC5 (1 / 2)).2.2 ≠
      min (hC5.rscHeld * ((1 / 2) / hC5.credits) * cfgC4.burnRate)
        (hC5.rscHeld * (1 / 10)) := by
  with_unfolding_all decide

/-- Claim C5, amended: deploying `0 < a ≤ credits` decreases `credits` by
exactly `a`, adds `a` to the proposal's `credits_received` and to the
backer ledger total, burns
`min(rsc_held × (a / max(credits_before, 1)) × burn_rate, rsc_held/10)`
(the denominator is clamped below at 1, unlike the claimed formula),
decreases `rsc_held` by exactly that burn, and the burn never exceeds 10%
of the pre-deployment `rsc_held`. -/
theorem c5_amended (cfg : Config) (n : ℕ) (h : Holder) (p : Proposal)
    (a : ℚ) (ha : 0 < a) (hle : a ≤ h.credits) :
    (deployCredits cfg n h p a).1.credits = h.credits - a ∧
    (deployCredits cfg n h p a).1.totalDeployed = h.totalDeployed + a ∧
    (deployCredits cfg n h p a).2.1.creditsReceived =
      p.creditsReceived + a ∧
    backersSum (deployCredits cfg n h p a).2.1.backers =
      backersSum p.backers + a ∧
    (deployCredits cfg n h p a).2.2 =
      min (h.rscHeld * (a / max h.credits 1) * cfg.burnRate)
        (h.rscHeld * (1 / 10)) ∧
    (deployCredits cfg n h p a).1.rscHeld =
      h.rscHeld - (deployCredits cfg n h p a).2.2 ∧
    (deployCredits cfg n h p a).2.2 ≤ h.rscHeld * (1 / 10) := by
  have hclamp : ¬ a > h.credits := not_lt.mpr hle
  have hguard : ¬ a ≤ 0 := not_le.mpr ha
  unfold deployCredits
  dsimp only
  rw [if_neg hclamp, if_neg hguard]
  refine ⟨rfl, rfl, receiveCredits_creditsReceived p h.uniqueId a n, ?_,
    rfl, rfl, min_le_right _ _⟩
  rw [receiveCredits_backers, backersSum_addBacker]

theorem c5_amended_witness :
    (deployCredits cfgC4 0 hC5 pC5 (1 / 2)).1.credits =
      hC5.credits - 1 / 2 ∧
    (deployCredits cfgC4 0 hC5 pC5 (1 / 2)).2.2 =
      min (hC5.rscHeld * ((1 / 2) / max hC5.credits 1) * cfgC4.burnRate)
        (hC5.rscHeld * (1 / 10)) ∧
    (deployCredits cfgC4 0 hC5 pC5 (1 / 2)).2.2 ≤
      hC5.rscHeld * (1 / 10) := by
  obtain ⟨h1, _, _, _, h5, _, h7⟩ := c5_amended cfgC4 0 hC5 pC5 (1 / 2)
    (by norm_num) (by with_unfolding_all decide)
  exact ⟨h1, h5, h7⟩

/-- Claim C6: in every reachable state, open proposals carry no funding
timestamp and non-open proposals have met their funding target; across a
step the proposal collection only appends, and each existing proposal
keeps its id, moves along the permitted status order
`open → funded → completed|failed`, and never loses received credits. -/
theorem c6_theorem (cfg : Config) (c0 : RC) (sh : ℕ → List ℕ) (n : ℕ) :
    (∀ p ∈ (runSteps cfg c0 sh n).proposals,
      (p.status = .opened → p.stepFunded = none) ∧
      (p.status ≠ .opened → p.fundingTarget ≤ p.creditsReceived)) ∧
    ProposalsEvolve (runSteps cfg c0 sh n).proposals
      (runSteps cfg c0 sh (n + 1)).proposals := by
  refine ⟨c6St_runSteps cfg c0 sh n, ?_⟩
  exact (c6_step cfg (sh n) (runSteps cfg c0 sh n)
    (c6St_runSteps cfg c0 sh n)).2

/-- Claim C7: a proposal's resolution step always strictly exceeds its
funding step (funding and resolution never happen in the same step); and
when every success draw beats the threshold (`success_rate = 1` with unit
draws below 1), every proposal funded at a step `f` before the current
step count is `completed` with `step_resolved = f + 1`. -/
theorem c7_theorem (cfg : Config) (c0 : RC) (sh : ℕ → List ℕ) (n : ℕ) :
    (∀ p ∈ (runSteps cfg c0 sh n).proposals, ∀ f r,
      p.stepFunded = some f → p.stepResolved = some r → f < r) ∧
    ((∀ k, cfg.unitStream k < cfg.successRate) →
      ∀ p ∈ (runSteps cfg c0 sh n).proposals, ∀ f,
        p.stepFunded = some f → f < n →
        p.status = .completed ∧ p.stepResolved = some (f + 1)) := by
  constructor
  · intro p hp f r hf hr
    obtain ⟨_, _, h3⟩ := c7aSt_runSteps cfg c0 sh n p hp
    obtain ⟨_, f', hf', hlt⟩ := h3 r hr
    rw [hf] at hf'
    exact (Option.some_injective _ hf') ▸ hlt
  · intro hsucc p hp f hf hlt
    exact (c7bSt_runSteps cfg c0 sh hsucc n p hp f hf).2 hlt

theorem c7_witness :
    ∃ p, (runSteps cfg7 rc0 (fun _ => [0]) 2).proposals.get? 0 = some p ∧
      p.stepFunded = some 1 ∧ p.status = .completed ∧
      p.stepResolved = some 2 := by
  have h2 := (c7_theorem cfg7 rc0 (fun _ => [0]) 2).2 cfg7_stream_lt
  have hget : (runSteps cfg7 rc0 (fun _ => [0]) 2).proposals.get? 0 =
      some ⟨1, 1, 121 / 4, [(1, 121 / 4)], .completed, 0, some 1,
        some 2⟩ := by
    with_unfolding_all decide
  refine ⟨_, hget, rfl, ?_⟩
  have hres := h2 _ (List.get?_mem hget) 1 rfl (by omega)
  exact ⟨hres.1, hres.2⟩

/-- Claim C8: over the reals with `pow2 x = 2 ^ x`, `annual_emission`
equals `year0_emission / 2^((t/52) / half_life_years)` at every step
count `t`, `weekly_emission` is that annual value divided by 52, the
power in the denominator is never zero (the functions are total in `t`),
and a positive `year0_emission` yields a positive annual emission. -/
theorem c8_theorem (y0 hl : ℝ) (t : ℕ) :
    annual_emission (fun x => (2 : ℝ) ^ x) y0 hl t =
      y0 / (2 : ℝ) ^ (((t : ℝ) / 52) / hl) ∧
    weekly_emission (fun x => (2 : ℝ) ^ x) y0 hl t =
      annual_emission (fun x => (2 : ℝ) ^ x) y0 hl t / 52 ∧
    (2 : ℝ) ^ (((t : ℝ) / 52) / hl) ≠ 0 ∧
    (0 < y0 →
      0 < annual_emission (fun x => (2 : ℝ) ^ x) y0 hl t) := by
  refine ⟨rfl, rfl, ?_, ?_⟩
  · exact (Real.rpow_pos_of_pos (by norm_num) _).ne'
  · intro hy
    show 0 < y0 / (2 : ℝ) ^ (((t : ℝ) / 52) / hl)
    exact div_pos hy (Real.rpow_pos_of_pos (by norm_num) _)

theorem c8_witness :
    annual_emission (fun x => (2 : ℝ) ^ x) 9500000 64 0 = 9500000 ∧
    weekly_emission (fun x => (2 : ℝ) ^ x) 9500000 64 0 =
      annual_emission (fun x => (2 : ℝ) ^ x) 9500000 64 0 / 52 ∧
    0 < annual_emission (fun x => (2 : ℝ) ^ x) 9500000 64 0 := by
  obtain ⟨h1, h2, _, h4⟩ := c8_theorem 9500000 64 0
  refine ⟨?_, h2, h4 (by norm_num)⟩
  rw [h1]
  norm_num

/-- Claim C9: under a well-formed configuration (unit draws in `[0, 1]`,
non-negative emission schedule, non-negative archetype RSC ranges), after
every number of steps every holder has `rsc_held ≥ 0`, `credits ≥ 0` and
a credit-batch ledger summing to at most `credits`; and the expiry,
deployment and refund operations each preserve the holder invariant. -/
theorem c9_theorem (cfg : Config) (c0 : RC) (sh : ℕ → List ℕ) (n : ℕ)
    (hcfg : CfgOk cfg) :
    (∀ h ∈ (runSteps cfg c0 sh n).holders,
      0 ≤ h.rscHeld ∧ 0 ≤ h.credits ∧
      batchSum h.creditBatches ≤ h.credits) ∧
    (∀ (h : Holder) (m : ℕ), HolderOk h →
      HolderOk (h.expireOldCredits m)) ∧
    (∀ (m : ℕ) (h : Holder) (p : Proposal) (a : ℚ), HolderOk h →
      HolderOk (deployCredits cfg m h p a).1) ∧
    (∀ (hs : List Holder) (hid : ℕ) (v : ℚ), (∀ h ∈ hs, HolderOk h) →
      0 ≤ v → ∀ h ∈ applyRefund hs hid v, HolderOk h) := by
  refine ⟨?_, ?_, ?_, ?_⟩
  · intro h hh
    obtain ⟨hH, _⟩ := stateOk_runSteps cfg c0 sh hcfg n
    obtain ⟨h1, h2, _, h4, _⟩ := hH h hh
    exact ⟨h1, h2, h4⟩
  · exact fun h m hok => holderOk_expire h m hok
  · exact fun m h p a hok => holderOk_deployCredits cfg m h p a hok
  · exact fun hs hid v hok hv => applyRefund_ok hok hv

theorem c9_witness :
    ∃ h, (runSteps cfgC2 rc0 (fun _ => [0, 1]) 1).holders.get? 0 = some h ∧
      0 ≤ h.rscHeld ∧ 0 ≤ h.credits ∧
      batchSum h.creditBatches ≤ h.credits := by
  have hall := (c9_theorem cfgC2 rc0 (fun _ => [0, 1]) 1 cfgC2_ok).1
  have hget : (runSteps cfgC2 rc0 (fun _ => [0, 1]) 1).holders.get? 0 =
      some ⟨1, "institution", 0, 0, 0, 0, 500, 500, 4, 0, false, 8, [], 0,
        0, 0, 0, [], true, 1, 1⟩ := by
    with_unfolding_all decide
  exact ⟨_, hget, hall _ (List.get?_mem hget)⟩

/-- Claim C10: in every reachable state, every proposal's backer ledger
sums exactly to its `credits_received` — both start at zero and
`receive_credits` adds the same amount to both. -/
theorem c10_theorem (cfg : Config) (c0 : RC) (sh : ℕ → List ℕ) (n : ℕ) :
    ∀ p ∈ (runSteps cfg c0 sh n).proposals,
      backersSum p.backers = p.creditsReceived :=
  sumOk_runSteps cfg c0 sh n

theorem c10_witness :
    ∃ p, (runSteps cfg7 rc0 (fun _ => [0]) 1).proposals.get? 0 = some p ∧
      backersSum p.backers = p.creditsReceived := by
  have hall := c10_theorem cfg7 rc0 (fun _ => [0]) 1
  have hget : (runSteps cfg7 rc0 (fun _ => [0]) 1).proposals.get? 0 =
      some ⟨1, 1, 121 / 4, [(1, 121 / 4)], .funded, 0, some 1, none⟩ := by
    with_unfolding_all decide
  exact ⟨_, hget, hall _ (List.get?_mem hget)⟩

end RscEndowment
